import Mathlib

/-!
Verification of the numerical-abstract-domain library (split octagons and
the two array abstractions) against its specification.

The development shallowly embeds the relevant C++ sources:
  - crab/include/crab/domains/domain_traits.hpp (entailment checker traits)
  - crab/include/crab/domains/array_smashing.hpp (array smashing domain)
  - the array-expansion domain (offset maps, cells, load/store/init)
  - the split-octagon domain (graph representation, get_vert, normalize,
    meet, widening, interval projection)

Helper libraries that the repository uses but whose sources are not part of
this snapshot (interval arithmetic, linear constraints, the weighted-graph
operations of graph_ops.hpp, the patricia tree) are modelled from the
specification text; each such definition carries a doc comment saying so.
Machine integers: the analysis numbers are arbitrary-precision integers
(spec section 1 assumes infinite precision), so they are modelled as Int.
-/

/-- Variable types of the data model (spec section 3): boolean, integer,
real, pointer and the four array flavours. Bit-widths are not tracked since
no claim depends on them. -/
inductive VType where
  | tBool | tInt | tReal | tPtr
  | tArrBool | tArrInt | tArrReal | tArrPtr
deriving DecidableEq, Repr

/-- Element type of an array type (array_expansion get_array_element_type). -/
def VType.elemType : VType → VType
  | .tArrBool => .tBool
  | .tArrInt => .tInt
  | .tArrReal => .tReal
  | _ => .tPtr

/-- Typed variables. pv n ty is a program variable with stable index n.
cellV a o sz ety is the scalar variable materialized for the cell of array
index a at byte offset o with size sz; making it a constructor captures the
process-wide memoization table of the array-expansion domain (identical
triples always yield the same scalar identity, spec section 3). -/
inductive AVar where
  | pv (n : Nat) (ty : VType)
  | cellV (a : Nat) (off : Int) (sz : Nat) (ety : VType)
deriving DecidableEq, Repr

/-- Type of a variable. -/
def AVar.type : AVar → VType
  | .pv _ ty => ty
  | .cellV _ _ _ ety => ety

/-- True for the cell scalars created by the array-expansion domain. -/
def AVar.isCell : AVar → Bool
  | .pv _ _ => false
  | .cellV _ _ _ _ => true

/-- Stable integer index of a variable (Variable::index). -/
def AVar.idx : AVar → Nat
  | .pv n _ => n
  | .cellV a _ _ _ => a

/-- is_array_type of the C++ variable class. -/
def AVar.isArrayType (v : AVar) : Bool :=
  match v.type with
  | .tArrBool | .tArrInt | .tArrReal | .tArrPtr => true
  | _ => false

/-- Linear expression: a constant plus (coefficient, variable) pairs with
distinct variables (spec section 3). -/
structure LinExpr where
  const : Int
  terms : List (Int × AVar)
deriving DecidableEq, Repr

/-- The constant expression k. -/
def LinExpr.k (c : Int) : LinExpr := ⟨c, []⟩

/-- The expression consisting of a single variable. -/
def LinExpr.var (v : AVar) : LinExpr := ⟨0, [(1, v)]⟩

/-- Multiplication of an expression by a scalar (expression * number). -/
def LinExpr.scale (e : LinExpr) (c : Int) : LinExpr :=
  ⟨c * e.const, e.terms.map (fun p => (c * p.1, p.2))⟩

/-- is_constant of the C++ linear expression: no variable terms. -/
def LinExpr.isConst (e : LinExpr) : Bool := e.terms.isEmpty

/-- Variables occurring in an expression. -/
def LinExpr.vars (e : LinExpr) : List AVar := e.terms.map Prod.snd

/-- Modelled from the spec: extended integer bounds (spec section 3,
Bound: integer value extended with plus or minus infinity); the source
intervals.hpp is not part of the snapshot. -/
inductive EB where
  | ninf
  | fin (z : Int)
  | pinf
deriving DecidableEq, Repr

/-- Order on extended bounds. -/
def EB.leb : EB → EB → Bool
  | .ninf, _ => true
  | _, .pinf => true
  | .fin a, .fin b => a ≤ b
  | .pinf, _ => false
  | .fin _, .ninf => false

/-- Addition of extended bounds. Mixed infinities never arise for the
bounds of a well-formed interval (lower bound is never plus infinity and
upper bound never minus infinity); ties are broken towards ninf. -/
def EB.add : EB → EB → EB
  | .ninf, _ => .ninf
  | _, .ninf => .ninf
  | .pinf, _ => .pinf
  | _, .pinf => .pinf
  | .fin a, .fin b => .fin (a + b)

/-- Multiplication of extended bounds; zero absorbs infinities (as in the
ikos bound arithmetic the spec assumes). -/
def EB.mul : EB → EB → EB
  | .fin 0, _ => .fin 0
  | _, .fin 0 => .fin 0
  | .fin a, .fin b => .fin (a * b)
  | .fin a, .pinf => if 0 < a then .pinf else .ninf
  | .fin a, .ninf => if 0 < a then .ninf else .pinf
  | .pinf, .fin a => if 0 < a then .pinf else .ninf
  | .ninf, .fin a => if 0 < a then .ninf else .pinf
  | .pinf, .pinf => .pinf
  | .ninf, .ninf => .pinf
  | .pinf, .ninf => .ninf
  | .ninf, .pinf => .ninf

/-- Minimum of extended bounds. -/
def EB.minb (a b : EB) : EB := if EB.leb a b then a else b

/-- Maximum of extended bounds. -/
def EB.maxb (a b : EB) : EB := if EB.leb a b then b else a

/-- Modelled from the spec: intervals (spec section 3: pair of bounds with
lb ≤ ub, bottom represents empty); intervals.hpp is not in the snapshot. -/
inductive Itv where
  | bot
  | iv (lo hi : EB)
deriving DecidableEq, Repr

/-- Normalizing constructor: an empty range collapses to bottom. -/
def Itv.make (lo hi : EB) : Itv := if EB.leb lo hi then .iv lo hi else .bot

/-- The top interval. -/
def Itv.top : Itv := .iv .ninf .pinf

/-- Singleton interval. -/
def Itv.single (z : Int) : Itv := .iv (.fin z) (.fin z)

/-- Interval addition. -/
def Itv.add : Itv → Itv → Itv
  | .bot, _ => .bot
  | _, .bot => .bot
  | .iv a b, .iv c d => Itv.make (EB.add a c) (EB.add b d)

/-- Interval multiplication via the four bound products. -/
def Itv.mul : Itv → Itv → Itv
  | .bot, _ => .bot
  | _, .bot => .bot
  | .iv a b, .iv c d =>
    let p1 := EB.mul a c
    let p2 := EB.mul a d
    let p3 := EB.mul b c
    let p4 := EB.mul b d
    Itv.make (EB.minb (EB.minb p1 p2) (EB.minb p3 p4))
             (EB.maxb (EB.maxb p1 p2) (EB.maxb p3 p4))

/-- Interval meet. -/
def Itv.meet : Itv → Itv → Itv
  | .bot, _ => .bot
  | _, .bot => .bot
  | .iv a b, .iv c d => Itv.make (EB.maxb a c) (EB.minb b d)

/-- is_bottom of an interval. -/
def Itv.isBot : Itv → Bool
  | .bot => true
  | .iv _ _ => false

/-- singleton() of an interval: the value when both bounds agree. -/
def Itv.singleton : Itv → Option Int
  | .iv (.fin a) (.fin b) => if a = b then some a else none
  | _ => none

/-- Modelled from the spec: linear-constraint kinds (spec section 3):
equality e = 0, inequality e ≤ 0, disequality e ≠ 0, strict inequality
e < 0; linear_constraints.hpp is not in the snapshot. -/
inductive CKind where
  | EQUALITY | INEQUALITY | DISEQUATION | SINEQUALITY
deriving DecidableEq, Repr

/-- Linear constraint: an expression with a kind. -/
structure LinCst where
  e : LinExpr
  kind : CKind
deriving DecidableEq, Repr

/-- Negation of an expression. -/
def LinExpr.negE (e : LinExpr) : LinExpr := e.scale (-1)

/-- Modelled from the spec: negation of a constraint (spec section 3:
negation of an inequality yields a strict inequality; an equality negates
to a disequality). -/
def LinCst.negate : LinCst → LinCst
  | ⟨e, .EQUALITY⟩ => ⟨e, .DISEQUATION⟩
  | ⟨e, .DISEQUATION⟩ => ⟨e, .EQUALITY⟩
  | ⟨e, .INEQUALITY⟩ => ⟨e.negE, .SINEQUALITY⟩
  | ⟨e, .SINEQUALITY⟩ => ⟨e.negE, .INEQUALITY⟩

/-- A constraint over the empty set of variables that always holds. -/
def LinCst.isTaut (c : LinCst) : Bool :=
  c.e.isConst &&
  (match c.kind with
   | .EQUALITY => c.e.const = 0
   | .INEQUALITY => c.e.const ≤ 0
   | .DISEQUATION => c.e.const ≠ 0
   | .SINEQUALITY => c.e.const < 0)

/-- A constraint over the empty set of variables that never holds. -/
def LinCst.isContra (c : LinCst) : Bool :=
  c.e.isConst &&
  !(match c.kind with
    | .EQUALITY => c.e.const = 0
    | .INEQUALITY => c.e.const ≤ 0
    | .DISEQUATION => c.e.const ≠ 0
    | .SINEQUALITY => c.e.const < 0)

/-- constraint_simp_domain_traits::lower_equality of domain_traits.hpp:
an equality e = 0 is emitted as the two inequalities e ≤ 0 and -e ≤ 0;
any other constraint passes through. -/
def lower_equality (cst : LinCst) : List LinCst :=
  if cst.kind = .EQUALITY then
    [⟨cst.e, .INEQUALITY⟩, ⟨cst.e.scale (-1), .INEQUALITY⟩]
  else
    [cst]

/-- Operations an abstract domain offers to the checker traits: bottom
test and adjoining a linear constraint (the C++ code is generic in the
domain type in exactly this way). -/
structure DomOps (δ : Type) where
  is_bottom : δ → Bool
  addCst : δ → LinCst → δ

/-- The entailment functor of checker_domain_traits: copy the domain,
adjoin the negation of the constraint, and test for bottom. -/
def entailmentOp {δ : Type} (O : DomOps δ) (d : δ) (c : LinCst) : Bool :=
  O.is_bottom (O.addCst d c.negate)

/-- entail_all_of of checker_domain_traits. -/
def entail_all_of {δ : Type} (O : DomOps δ) (d : δ) (csts : List LinCst) : Bool :=
  csts.all (entailmentOp O d)

/-- checker_domain_traits::entail of domain_traits.hpp. -/
def entail {δ : Type} (O : DomOps δ) (d : δ) (cst : LinCst) : Bool :=
  if O.is_bottom d then true
  else if cst.isTaut then true
  else if cst.isContra then false
  else if cst.kind = .EQUALITY then entail_all_of O d (lower_equality cst)
  else entailmentOp O d cst

/-- C2: entail(D, cst) returns true exactly when D is bottom, or cst is a
tautology, or cst is no contradiction and for every constraint of the
lowering of cst (the two inequalities of an equality, cst itself
otherwise) the copy of D with the negation adjoined is bottom; and the
negation of a lowered constraint is never a disequality. -/
theorem C2_entail_negation_bottom {δ : Type} (O : DomOps δ) (d : δ) (cst : LinCst) :
    entail O d cst =
      (O.is_bottom d || cst.isTaut ||
        (!cst.isContra &&
          (lower_equality cst).all (fun c => O.is_bottom (O.addCst d c.negate))))
    ∧ ∀ c ∈ lower_equality cst, (LinCst.negate c).kind ≠ CKind.DISEQUATION := by
  constructor
  · unfold entail entail_all_of entailmentOp lower_equality
    rcases cst with ⟨e, k⟩
    cases hb : O.is_bottom d <;>
      cases ht : LinCst.isTaut ⟨e, k⟩ <;>
        cases hc : LinCst.isContra ⟨e, k⟩ <;>
          cases k <;>
            simp_all [LinCst.isTaut, LinCst.isContra]
  · intro c hc
    rcases cst with ⟨e, k⟩
    cases k <;> simp [lower_equality] at hc <;>
      first
      | (rcases hc with h | h <;> subst h <;> simp [LinCst.negate])
      | (subst hc; simp [LinCst.negate])

/-- A concrete inner numerical domain used to instantiate the array
lifters: constant propagation. A value is a bottom flag together with a
finite environment binding variables to known constants (an unbound
variable is unconstrained). It satisfies the numerical-domain contract of
spec section 4.1 as far as the claims need it. -/
structure ConstDom where
  bot : Bool
  env : List (AVar × Int)
deriving DecidableEq, Repr

/-- Lookup in an association list. -/
def envFind (l : List (AVar × Int)) (v : AVar) : Option Int :=
  match l.find? (fun p => p.1 = v) with
  | some p => some p.2
  | none => none

/-- Remove a binding. -/
def envErase (l : List (AVar × Int)) (v : AVar) : List (AVar × Int) :=
  l.filter (fun p => p.1 ≠ v)

/-- Set a binding (replacing any previous one). -/
def envSet (l : List (AVar × Int)) (v : AVar) (c : Int) : List (AVar × Int) :=
  (v, c) :: envErase l v

/-- lookup of a binding in a domain value. -/
def ConstDom.find (d : ConstDom) (v : AVar) : Option Int := envFind d.env v

/-- The top value. -/
def ConstDom.top : ConstDom := ⟨false, []⟩

/-- The bottom value. -/
def ConstDom.mkBot : ConstDom := ⟨true, []⟩

/-- is_bottom. -/
def ConstDom.is_bottom (d : ConstDom) : Bool := d.bot

/-- is_top: no binding and not bottom. -/
def ConstDom.is_top (d : ConstDom) : Bool := !d.bot && d.env.isEmpty

/-- Interval projection of a variable (operator[] of the contract): the
singleton of its binding, top when unbound, bottom on the bottom value. -/
def ConstDom.getItv (d : ConstDom) (v : AVar) : Itv :=
  if d.bot then .bot
  else match d.find v with
       | some c => Itv.single c
       | none => Itv.top

/-- to_interval of the array-expansion domain: interval evaluation of a
linear expression in the inner domain (part_000 lines 640-648). -/
def ConstDom.toItv (d : ConstDom) (e : LinExpr) : Itv :=
  e.terms.foldl (fun r p => r.add ((Itv.single p.1).mul (d.getItv p.2)))
    (Itv.single e.const)

/-- Constant evaluation of an expression: the singleton of its interval. -/
def ConstDom.evalC (d : ConstDom) (e : LinExpr) : Option Int :=
  (d.toItv e).singleton

/-- assign x := e: bind x to the constant value of e when it has one,
otherwise drop any binding of x (x becomes unconstrained). -/
def ConstDom.assign (d : ConstDom) (x : AVar) (e : LinExpr) : ConstDom :=
  if d.bot then d
  else match d.evalC e with
       | some c => ⟨false, envSet d.env x c⟩
       | none => ⟨false, envErase d.env x⟩

/-- forget x (operator-= of the contract). -/
def ConstDom.forget (d : ConstDom) (x : AVar) : ConstDom :=
  if d.bot then d else ⟨false, envErase d.env x⟩

/-- assign_bool_cst modelled for the constant domain: booleans are kept as
the integers 1 and 0. -/
def ConstDom.assignBoolCst (d : ConstDom) (x : AVar) (b : Bool) : ConstDom :=
  if d.bot then d else ⟨false, envSet d.env x (if b then 1 else 0)⟩

/-- assign_bool_var modelled for the constant domain. -/
def ConstDom.assignBoolVar (d : ConstDom) (x y : AVar) (isNot : Bool) : ConstDom :=
  if d.bot then d
  else match d.find y with
       | some c => ⟨false, envSet d.env x (if isNot then 1 - c else c)⟩
       | none => ⟨false, envErase d.env x⟩

/-- pointer_mk_null modelled for the constant domain: the null pointer is
the constant 0. -/
def ConstDom.ptrMkNull (d : ConstDom) (x : AVar) : ConstDom :=
  if d.bot then d else ⟨false, envSet d.env x 0⟩

/-- pointer_assign with zero offset modelled for the constant domain. -/
def ConstDom.ptrAssign (d : ConstDom) (x y : AVar) : ConstDom :=
  if d.bot then d
  else match d.find y with
       | some c => ⟨false, envSet d.env x c⟩
       | none => ⟨false, envErase d.env x⟩

/-- Join: bottom is the unit; otherwise keep the bindings on which both
operands agree. -/
def ConstDom.join (d1 d2 : ConstDom) : ConstDom :=
  if d1.bot then d2
  else if d2.bot then d1
  else ⟨false, d1.env.filter (fun p => envFind d2.env p.1 = some p.2)⟩

/-- Partial order: bottom below everything; otherwise every binding of the
right operand must be present on the left (fewer bindings = larger). -/
def ConstDom.leq (d1 d2 : ConstDom) : Bool :=
  if d1.bot then true
  else if d2.bot then false
  else d2.env.all (fun p => envFind d1.env p.1 = some p.2)

/-- get_variable() of a linear expression: the variable when the
expression is exactly one variable with unit coefficient. -/
def LinExpr.getVariable (e : LinExpr) : Option AVar :=
  match e.terms with
  | [(c, v)] => if c = 1 ∧ e.const = 0 then some v else none
  | _ => none

/-- array_smashing::strong_update (array_smashing.hpp lines 63-81),
instantiated with the constant-propagation inner domain. -/
def sm_strong_update (inv : ConstDom) (a : AVar) (rhs : LinExpr) : ConstDom :=
  if a.type = .tArrBool then
    if rhs.isConst then
      if 1 ≤ rhs.const then inv.assignBoolCst a true
      else inv.assignBoolCst a false
    else match rhs.getVariable with
         | some v => inv.assignBoolVar a v false
         | none => inv
  else if a.type = .tArrInt ∨ a.type = .tArrReal then
    inv.assign a rhs
  else if a.type = .tArrPtr then
    if rhs.isConst ∧ rhs.const = 0 then inv.ptrMkNull a
    else match rhs.getVariable with
         | some v => inv.ptrAssign a v
         | none => inv
  else inv

/-- array_smashing::weak_update (array_smashing.hpp lines 83-105): perform
the per-type assignment on a copy and join with the original state. -/
def sm_weak_update (inv : ConstDom) (a : AVar) (rhs : LinExpr) : ConstDom :=
  let other :=
    if a.type = .tArrBool then
      if rhs.isConst then
        if 1 ≤ rhs.const then inv.assignBoolCst a true
        else inv.assignBoolCst a false
      else match rhs.getVariable with
           | some v => inv.assignBoolVar a v false
           | none => inv
    else if a.type = .tArrInt ∨ a.type = .tArrReal then
      inv.assign a rhs
    else if a.type = .tArrPtr then
      if rhs.isConst ∧ rhs.const = 0 then inv.ptrMkNull a
      else match rhs.getVariable with
           | some v => inv.ptrAssign a v
           | none => inv
    else inv
  inv.join other

/-- array_smashing::array_store (array_smashing.hpp lines 400-415): strong
update when the caller asserts a singleton target, weak update otherwise.
The element size and index are ignored by the smashing domain. -/
def sm_array_store (inv : ConstDom) (a : AVar) (_elemSize _i : LinExpr)
    (val : LinExpr) (isSingleton : Bool) : ConstDom :=
  if isSingleton then sm_strong_update inv a val
  else sm_weak_update inv a val

/-- Well-formed environment: at most one binding per variable. -/
def envWF (l : List (AVar × Int)) : Prop := (l.map Prod.fst).Nodup

/-- In a well-formed environment a present binding is the one found. -/
theorem envFind_eq_of_mem {l : List (AVar × Int)} {a : AVar} {b : Int}
    (hwf : envWF l) (hmem : (a, b) ∈ l) : envFind l a = some b := by
  unfold envFind
  induction l with
  | nil => simp at hmem
  | cons p rest ih =>
    unfold envWF at hwf
    simp only [List.map_cons, List.nodup_cons] at hwf
    rcases hwf with ⟨hnotin, hrest⟩
    rcases List.mem_cons.mp hmem with h | h
    · subst h
      simp [List.find?]
    · have hne : p.1 ≠ a := by
        intro he
        exact hnotin (he ▸ (List.mem_map.mpr ⟨(a, b), h, rfl⟩))
      simp only [List.find?]
      rw [show (decide (p.1 = a)) = false by simp [hne]]
      exact ih hrest h

/-- On non-bottom well-formed states both operands are below the join
(the join keeps exactly the agreeing bindings). -/
theorem ConstDom.leq_join_left (d1 d2 : ConstDom) (hwf : envWF d1.env) :
    d1.leq (d1.join d2) = true := by
  unfold ConstDom.leq ConstDom.join
  cases h1 : d1.bot
  · cases h2 : d2.bot
    · simp [h1, h2]
      intro a b hmem
      exact Or.inr (envFind_eq_of_mem hwf hmem)
    · simp [h1, h2]
      intro a b hmem
      exact envFind_eq_of_mem hwf hmem
  · simp [h1]

/-- The right operand is below the join as well. -/
theorem ConstDom.leq_join_right (d1 d2 : ConstDom) (hwf : envWF d2.env) :
    d2.leq (d1.join d2) = true := by
  unfold ConstDom.leq ConstDom.join
  cases h2 : d2.bot
  · cases h1 : d1.bot
    · simp [h1, h2]
    · simp [h1, h2]
      intro a b hmem
      exact envFind_eq_of_mem hwf hmem
  · simp [h2]

/-- Erasing a binding preserves well-formedness. -/
theorem envWF_erase {l : List (AVar × Int)} (hwf : envWF l) (v : AVar) :
    envWF (envErase l v) := by
  unfold envWF envErase at *
  exact ((List.filter_sublist l).map Prod.fst).nodup hwf

/-- Setting a binding preserves well-formedness. -/
theorem envWF_set {l : List (AVar × Int)} (hwf : envWF l) (v : AVar) (c : Int) :
    envWF (envSet l v c) := by
  unfold envWF envSet
  simp only [List.map_cons, List.nodup_cons]
  refine ⟨?_, envWF_erase hwf v⟩
  intro hmem
  rcases List.mem_map.mp hmem with ⟨p, hp, hfst⟩
  have := List.of_mem_filter hp
  simp only [decide_eq_true_eq] at this
  exact this hfst

/-- Assignment preserves well-formedness of the environment. -/
theorem envWF_assign (d : ConstDom) (x : AVar) (e : LinExpr) (hwf : envWF d.env) :
    envWF (d.assign x e).env := by
  unfold ConstDom.assign
  cases hb : d.bot
  · rw [if_neg (by simp : ¬(false = true))]
    cases h : d.evalC e
    · simp only [h]
      exact envWF_erase hwf x
    · simp only [h]
      exact envWF_set hwf x _
  · simpa [hb]

/-- C8: array-smashing stores over an integer-array summary variable.
With is_singleton the store is the strong per-type assignment of val to a;
otherwise the assignment is computed on a copy and joined with the
original state, so the result over-approximates (in the domain order)
both the original state and the state in which a was assigned val. -/
theorem C8_smashing_store (inv : ConstDom) (a : AVar) (es i val : LinExpr)
    (hty : a.type = VType.tArrInt) (hwf : envWF inv.env) :
    sm_array_store inv a es i val true = sm_strong_update inv a val
    ∧ sm_array_store inv a es i val false = inv.join (inv.assign a val)
    ∧ inv.leq (sm_array_store inv a es i val false) = true
    ∧ (inv.assign a val).leq (sm_array_store inv a es i val false) = true := by
  have hsplit : sm_array_store inv a es i val false = inv.join (inv.assign a val) := by
    unfold sm_array_store sm_weak_update
    simp [hty]
  refine ⟨rfl, hsplit, ?_, ?_⟩
  · rw [hsplit]; exact ConstDom.leq_join_left _ _ hwf
  · rw [hsplit]; exact ConstDom.leq_join_right _ _ (envWF_assign _ _ _ hwf)

/-- Witness for C8 at a concrete state: the array summary a holds 0, a
non-singleton store of 5 yields a join that over-approximates both. -/
theorem C8_smashing_store_witness :
    (AVar.pv 0 VType.tArrInt).type = VType.tArrInt
    ∧ envWF (ConstDom.mk false [(AVar.pv 0 VType.tArrInt, 0)]).env
    ∧ (sm_array_store ⟨false, [(AVar.pv 0 VType.tArrInt, 0)]⟩ (AVar.pv 0 VType.tArrInt)
        (LinExpr.k 4) (LinExpr.k 0) (LinExpr.k 5) true
        = sm_strong_update ⟨false, [(AVar.pv 0 VType.tArrInt, 0)]⟩ (AVar.pv 0 VType.tArrInt) (LinExpr.k 5)
      ∧ sm_array_store ⟨false, [(AVar.pv 0 VType.tArrInt, 0)]⟩ (AVar.pv 0 VType.tArrInt)
        (LinExpr.k 4) (LinExpr.k 0) (LinExpr.k 5) false
        = ConstDom.join ⟨false, [(AVar.pv 0 VType.tArrInt, 0)]⟩
            (ConstDom.assign ⟨false, [(AVar.pv 0 VType.tArrInt, 0)]⟩ (AVar.pv 0 VType.tArrInt) (LinExpr.k 5))
      ∧ ConstDom.leq ⟨false, [(AVar.pv 0 VType.tArrInt, 0)]⟩
          (sm_array_store ⟨false, [(AVar.pv 0 VType.tArrInt, 0)]⟩ (AVar.pv 0 VType.tArrInt)
            (LinExpr.k 4) (LinExpr.k 0) (LinExpr.k 5) false) = true
      ∧ ConstDom.leq (ConstDom.assign ⟨false, [(AVar.pv 0 VType.tArrInt, 0)]⟩ (AVar.pv 0 VType.tArrInt) (LinExpr.k 5))
          (sm_array_store ⟨false, [(AVar.pv 0 VType.tArrInt, 0)]⟩ (AVar.pv 0 VType.tArrInt)
            (LinExpr.k 4) (LinExpr.k 0) (LinExpr.k 5) false) = true) :=
  ⟨rfl, by unfold envWF; decide,
   C8_smashing_store ⟨false, [(AVar.pv 0 VType.tArrInt, 0)]⟩ (AVar.pv 0 VType.tArrInt)
     (LinExpr.k 4) (LinExpr.k 0) (LinExpr.k 5) rfl (by unfold envWF; decide)⟩

/-- A cell of the array-expansion domain (part_000 lines 88-186): byte
offset, size in bytes, and the optional scalar variable holding the
content; cells created only as placeholders during overlap queries carry
no scalar. -/
structure Cell where
  off : Int
  size : Nat
  scalar : Option AVar
deriving DecidableEq, Repr

/-- Byte interval of a cell footprint (cell::to_interval): the interval
o .. o+size-1, empty when size is zero. -/
def cellItv (o : Int) (size : Nat) : Itv :=
  Itv.make (.fin o) (.fin (o + size - 1))

/-- cell::overlap: the byte intervals intersect. -/
def Cell.overlap (c : Cell) (o : Int) (size : Nat) : Bool :=
  !((cellItv c.off c.size).meet (cellItv o size)).isBot

/-- cell::operator==: cells compare by offset and size, ignoring the
scalar variable. -/
def Cell.sameCS (c1 c2 : Cell) : Bool := c1.off = c2.off && c1.size = c2.size

/-- The offset map of the array-expansion domain: a patricia tree mapping
offsets to the set of cells starting there. Modelled from the spec as an
association list sorted by key in ascending order (patricia trees iterate
keys as big-endian bit patterns, which agrees with the integer order on
the non-negative offsets of the data model, spec section 3); buckets are
kept sorted by cell size, mirroring the std::set order. -/
abbrev OffsetMap : Type := List (Int × List Cell)

/-- lookup of a bucket. -/
def omLookup (m : OffsetMap) (k : Int) : Option (List Cell) :=
  match m.find? (fun b => b.1 = k) with
  | some b => some b.2
  | none => none

/-- The cells stored at an offset (empty when the offset is unmapped). -/
def omBucket (m : OffsetMap) (k : Int) : List Cell :=
  match omLookup m k with
  | some cs => cs
  | none => []

/-- Removal of a key. -/
def omEraseKey (m : OffsetMap) (k : Int) : OffsetMap :=
  m.filter (fun b => b.1 ≠ k)

/-- Replacement of the bucket of an existing key. -/
def omSetKey (m : OffsetMap) (k : Int) (cs : List Cell) : OffsetMap :=
  m.map (fun b => if b.1 = k then (k, cs) else b)

/-- Insertion of a bucket at a fresh key, keeping keys sorted. -/
def omInsertKey : OffsetMap → Int → List Cell → OffsetMap
  | [], k, cs => [(k, cs)]
  | b :: rest, k, cs =>
    if k < b.1 then (k, cs) :: b :: rest else b :: omInsertKey rest k cs

/-- Insertion of a cell into a bucket in std::set order (cells of one
bucket share the offset, so the set order reduces to the size). -/
def bucketInsert : List Cell → Cell → List Cell
  | [], c => [c]
  | x :: rest, c => if c.size < x.size then c :: x :: rest else x :: bucketInsert rest c

/-- offset_map::insert_cell (part_000 lines 310-325): no effect when a
cell with the same offset and size is already present. -/
def omInsertCell (m : OffsetMap) (c : Cell) : OffsetMap :=
  match omLookup m c.off with
  | some cs =>
    if cs.any (fun x => x.sameCS c) then m
    else omSetKey m c.off (bucketInsert cs c)
  | none => omInsertKey m c.off [c]

/-- offset_map::remove_cell (part_000 lines 298-308): erase the cell with
the same offset and size; drop the key when its bucket empties. -/
def omRemoveCell (m : OffsetMap) (c : Cell) : OffsetMap :=
  match omLookup m c.off with
  | some cs =>
    if cs.any (fun x => x.sameCS c) then
      let cs' := cs.filter (fun x => !(x.sameCS c))
      if cs'.isEmpty then omEraseKey m c.off else omSetKey m c.off cs'
    else m
  | none => m

/-- operator-= over a vector of cells (part_000 lines 436-440). -/
def omRemoveCells (m : OffsetMap) (cs : List Cell) : OffsetMap :=
  cs.foldl omRemoveCell m

/-- offset_map::get_cell (part_000 lines 327-337): the stored cell with
the given offset and size, if any. -/
def getCell (m : OffsetMap) (o : Int) (size : Nat) : Option Cell :=
  match omLookup m o with
  | some cs => cs.find? (fun x => x.sameCS ⟨o, size, none⟩)
  | none => none

/-- offset_map::mk_cell (part_000 lines 380-402): reuse the stored cell
or create one whose scalar variable is determined by the process-wide
index map, here the cellV constructor on (array index, offset, size). -/
def mkCell (a : AVar) (m : OffsetMap) (o : Int) (size : Nat) : OffsetMap × Cell :=
  match getCell m o size with
  | some c => (m, c)
  | none =>
    let c : Cell := ⟨o, size, some (AVar.cellV a.idx o size a.type.elemType)⟩
    (omInsertCell m c, c)

/-- One bucket pass of get_overlap_cells: push every overlapping cell,
skipping the query cell itself when checkC is set (the backward walk) and
deduplicating with the same drastic linear search as the source. -/
def bucketPush (o : Int) (size : Nat) (q : Cell) (checkC : Bool)
    (out : List Cell) (b : List Cell) : List Cell :=
  b.foldl (fun acc x =>
    if x.overlap o size then
      if checkC && x.sameCS q then acc
      else if acc.any (fun y => y.sameCS x) then acc
      else acc ++ [x]
    else acc) out

/-- Bucket-by-bucket walk of get_overlap_cells: process a bucket, and
continue to the next one only when the bucket contained at least one
overlapping cell (continue_outer_loop of the source). -/
def walkB (o : Int) (size : Nat) (q : Cell) (checkC : Bool) :
    List (List Cell) → List Cell → List Cell
  | [], out => out
  | b :: rest, out =>
    let out' := bucketPush o size q checkC out b
    if b.any (fun x => x.overlap o size) then walkB o size q checkC rest out'
    else out'

/-- offset_map::get_overlap_cells (part_000 lines 443-550). A placeholder
cell for (o, size) is inserted when absent, so the lower-bound iterator
always lands on the bucket at o; the walk then goes backward over the
buckets with keys at most o and forward over the buckets with keys above
o, stopping at the first bucket without an overlapping cell. The third
sweep of the source (from past the bucket at o up to the upper bound) is
always the empty range, because the bucket at o exists; and the
placeholder is removed again, so the function is a pure query. The query cell q is the stored exact cell
when present, the placeholder otherwise. -/
def gocQ (m : OffsetMap) (o : Int) (size : Nat) : Cell :=
  match getCell m o size with
  | some c => c
  | none => ⟨o, size, none⟩

/-- The map the walk runs over: the placeholder cell for (o, size) is
inserted when no exact cell is stored. -/
def gocM (m : OffsetMap) (o : Int) (size : Nat) : OffsetMap :=
  if (getCell m o size).isSome then m else omInsertCell m ⟨o, size, none⟩

def get_overlap_cells (m : OffsetMap) (o : Int) (size : Nat) : List Cell :=
  walkB o size (gocQ m o size) false
    (((gocM m o size).filter (fun b => o < b.1)).map Prod.snd)
    (walkB o size (gocQ m o size) true
      ((((gocM m o size).filter (fun b => b.1 ≤ o)).map Prod.snd).reverse) [])

/-- State of the array-expansion domain (part_000 lines 632-635): the
separate domain mapping each array variable to its offset map, and the
inner numerical domain (instantiated with constant propagation). -/
structure ExpState where
  amap : List (AVar × OffsetMap)
  inv : ConstDom
deriving DecidableEq, Repr

/-- Projection of the separate domain (top maps every array to the empty
offset map). -/
def amapGet (am : List (AVar × OffsetMap)) (a : AVar) : OffsetMap :=
  match am.find? (fun p => p.1 = a) with
  | some p => p.2
  | none => []

/-- set of the separate domain. -/
def amapSet (am : List (AVar × OffsetMap)) (a : AVar) (m : OffsetMap) :
    List (AVar × OffsetMap) :=
  (a, m) :: am.filter (fun p => p.1 ≠ a)

/-- array_expansion_domain::array_load (part_000 lines 977-1030). On a
non-constant index the destination is forgotten; on a non-constant
element size the method returns with the state unchanged; on an
overlapping read the destination is forgotten; otherwise the target cell
is materialized and its scalar assigned to the destination. The cast of
the index to long is the identity here (numbers are unbounded, spec
section 1). -/
def exp_array_load (S : ExpState) (lhs a : AVar) (elemSize i : LinExpr) : ExpState :=
  if S.inv.is_bottom || S.inv.is_top then S
  else
    match (S.inv.toItv i).singleton with
    | some n =>
      let om := amapGet S.amap a
      match (S.inv.toItv elemSize).singleton with
      | none => S
      | some nb =>
        let size : Nat := nb.toNat
        let cells := get_overlap_cells om n size
        if cells.isEmpty then
          let r := mkCell a om n size
          let inv2 :=
            match r.2.scalar with
            | some sc => S.inv.assign lhs (LinExpr.var sc)
            | none => S.inv
          { amap := amapSet S.amap a r.1, inv := inv2 }
        else
          { S with inv := S.inv.forget lhs }
    | none => { S with inv := S.inv.forget lhs }

/-- array_expansion_domain::array_store (part_000 lines 1033-1091): kill
the overlapping cells (forget their scalars, remove them from the offset
map), materialize the target cell and strong-update its scalar. The
is_singleton flag is ignored by this domain. -/
def exp_array_store (S : ExpState) (a : AVar) (elemSize i val : LinExpr)
    (_isSingleton : Bool) : ExpState :=
  if S.inv.is_bottom then S
  else
    match (S.inv.toItv i).singleton with
    | some n =>
      let om := amapGet S.amap a
      match (S.inv.toItv elemSize).singleton with
      | none => S
      | some nb =>
        let size : Nat := nb.toNat
        let cells := get_overlap_cells om n size
        let inv1 := cells.foldl
          (fun d c => match c.scalar with
                      | some sc => d.forget sc
                      | none => d) S.inv
        let om1 := omRemoveCells om cells
        let r := mkCell a om1 n size
        let inv2 :=
          match r.2.scalar with
          | some sc => inv1.assign sc val
          | none => inv1
        { amap := amapSet S.amap a r.1, inv := inv2 }
    | none => S

/-- The store loop of array_init (part_000 lines 967-970), with explicit
fuel; the checks of array_init bound the iteration count by 512, so the
fuel 513 it is called with is never exhausted when the step is positive. -/
def exp_init_loop (a : AVar) (elemSize val : LinExpr) (n ub : Int) :
    Nat → Int → ExpState → ExpState
  | 0, _, S => S
  | fuel + 1, i, S =>
    if i < ub then
      exp_init_loop a elemSize val n ub fuel (i + n)
        (exp_array_store S a elemSize (LinExpr.k i) val false)
    else S

/-- array_expansion_domain::array_init (part_000 lines 917-975): all of
lb, ub, elem_size must be constants, ub - lb must be divisible by
elem_size (C++ truncated remainder) and at most 512; then val is stored
at lb, lb + n, ... while below ub. -/
def exp_array_init (S : ExpState) (a : AVar)
    (elemSize lbIdx ubIdx val : LinExpr) : ExpState :=
  if S.inv.is_bottom || S.inv.is_top then S
  else
    match (S.inv.toItv lbIdx).singleton with
    | none => S
    | some lb =>
      match (S.inv.toItv ubIdx).singleton with
      | none => S
      | some ub =>
        match (S.inv.toItv elemSize).singleton with
        | none => S
        | some n =>
          if (ub - lb).tmod n ≠ 0 then S
          else if 512 < ub - lb then S
          else exp_init_loop a elemSize val n ub 513 lb S

/-- sameCS unfolds to equality of offset and size. -/
theorem Cell.sameCS_iff {c1 c2 : Cell} :
    c1.sameCS c2 = true ↔ c1.off = c2.off ∧ c1.size = c2.size := by
  simp [Cell.sameCS]

/-- sameCS is reflexive. -/
theorem Cell.sameCS_refl (c : Cell) : c.sameCS c = true := by
  simp [Cell.sameCS]

/-- sameCS is symmetric. -/
theorem Cell.sameCS_symm {c1 c2 : Cell} (h : c1.sameCS c2 = true) :
    c2.sameCS c1 = true := by
  rcases Cell.sameCS_iff.mp h with ⟨h1, h2⟩
  exact Cell.sameCS_iff.mpr ⟨h1.symm, h2.symm⟩

/-- Cells agreeing on offset and size have the same overlap behaviour. -/
theorem Cell.overlap_congr {c1 c2 : Cell} (h : c1.sameCS c2 = true)
    (o : Int) (size : Nat) : c1.overlap o size = c2.overlap o size := by
  rcases Cell.sameCS_iff.mp h with ⟨h1, h2⟩
  simp [Cell.overlap, h1, h2]

/-- A cell footprint of positive size overlaps itself. -/
theorem Cell.overlap_self {c : Cell} (o : Int) (size : Nat)
    (hoff : c.off = o) (hsz : c.size = size) (hpos : 1 ≤ size) :
    c.overlap o size = true := by
  subst hoff hsz
  have h1 : EB.leb (.fin c.off) (.fin (c.off + c.size - 1)) = true := by
    simp only [EB.leb, decide_eq_true_eq]
    omega
  have hiv : cellItv c.off c.size = .iv (.fin c.off) (.fin (c.off + c.size - 1)) := by
    simp only [cellItv, Itv.make, h1, if_true]
  simp only [Cell.overlap, hiv, Itv.meet, EB.maxb, EB.minb, ite_self, Itv.make, h1,
    if_true, Itv.isBot, Bool.not_false]

/-- Nothing overlaps a query of size zero. -/
theorem Cell.overlap_size_zero (c : Cell) (o : Int) : c.overlap o 0 = false := by
  have : cellItv o 0 = Itv.bot := by
    simp only [cellItv, Itv.make, EB.leb]
    rw [if_neg]
    simp only [decide_eq_true_eq]
    omega
  simp only [Cell.overlap, this]
  cases cellItv c.off c.size <;> simp [Itv.meet, Itv.isBot]

/-- Different offsets rule out sameCS. -/
theorem Cell.sameCS_eq_false_of_off_ne {c1 c2 : Cell} (h : c1.off ≠ c2.off) :
    c1.sameCS c2 = false := by
  cases hc : c1.sameCS c2
  · rfl
  · exact absurd (Cell.sameCS_iff.mp hc).1 h

/-- The accumulator only grows during a bucket pass. -/
theorem bucketPush_sub (o : Int) (size : Nat) (q : Cell) (checkC : Bool) :
    ∀ (b : List Cell) (out : List Cell) (y : Cell),
      y ∈ out → y ∈ bucketPush o size q checkC out b := by
  intro b
  induction b with
  | nil => intro out y hy; simpa [bucketPush] using hy
  | cons x rest ih =>
    intro out y hy
    simp only [bucketPush, List.foldl_cons]
    apply ih
    split
    · split
      · exact hy
      · split
        · exact hy
        · exact List.mem_append_left _ hy
    · exact hy

/-- An allowed overlapping cell of the bucket leaves a sameCS
representative in the pass result (it is pushed unless an equal cell was
already collected). -/
theorem bucketPush_mem_of (o : Int) (size : Nat) (q : Cell) (checkC : Bool) :
    ∀ (b : List Cell) (out : List Cell) (x : Cell),
      x ∈ b → x.overlap o size = true →
      (checkC = true → x.sameCS q = false) →
      ∃ y ∈ bucketPush o size q checkC out b, y.sameCS x = true := by
  intro b
  induction b with
  | nil => intro out x hx; simp at hx
  | cons z rest ih =>
    intro out x hx hov hq
    rcases List.mem_cons.mp hx with hz | hx'
    · subst hz
      simp only [bucketPush, List.foldl_cons, hov, if_true]
      have hcq : (checkC && x.sameCS q) = false := by
        cases hc : checkC
        · simp
        · simp [hq hc]
      rw [hcq]
      simp only [Bool.false_eq_true, if_false]
      by_cases hdup : out.any (fun y => y.sameCS x) = true
      · rcases List.any_eq_true.mp hdup with ⟨y, hy, hsame⟩
        rw [if_pos hdup]
        exact ⟨y, bucketPush_sub o size q checkC rest out y hy, by simpa using hsame⟩
      · rw [if_neg hdup]
        refine ⟨x, bucketPush_sub o size q checkC rest _ x ?_, Cell.sameCS_refl x⟩
        exact List.mem_append_right _ (List.mem_singleton.mpr rfl)
    · simp only [bucketPush, List.foldl_cons]
      exact ih _ x hx' hov hq

/-- Everything the pass collects comes from the accumulator or is an
allowed overlapping cell of the bucket. -/
theorem bucketPush_sound (o : Int) (size : Nat) (q : Cell) (checkC : Bool) :
    ∀ (b : List Cell) (out : List Cell) (y : Cell),
      y ∈ bucketPush o size q checkC out b →
      y ∈ out ∨ (y ∈ b ∧ y.overlap o size = true ∧
                 (checkC = true → y.sameCS q = false)) := by
  intro b
  induction b with
  | nil => intro out y hy; exact Or.inl (by simpa [bucketPush] using hy)
  | cons z rest ih =>
    intro out y hy
    simp only [bucketPush, List.foldl_cons] at hy
    rcases ih _ y hy with hout | hin
    · by_cases hov : z.overlap o size = true
      · simp only [hov, if_true] at hout
        by_cases hcq : (checkC && z.sameCS q) = true
        · rw [if_pos hcq] at hout
          exact Or.inl hout
        · rw [if_neg hcq] at hout
          by_cases hdup : out.any (fun w => w.sameCS z) = true
          · rw [if_pos hdup] at hout
            exact Or.inl hout
          · rw [if_neg hdup] at hout
            rcases List.mem_append.mp hout with h | h
            · exact Or.inl h
            · have hz : y = z := List.mem_singleton.mp h
              subst hz
              refine Or.inr ⟨List.mem_cons_self _ _, hov, ?_⟩
              intro hck
              cases hs : Cell.sameCS y q
              · rfl
              · simp [hck, hs] at hcq
      · simp only [hov] at hout
        simp only [Bool.false_eq_true, if_false] at hout
        exact Or.inl hout
    · exact Or.inr ⟨List.mem_cons_of_mem _ hin.1, hin.2⟩

/-- A bucket whose overlapping cells are all filtered pushes nothing. -/
theorem bucketPush_id (o : Int) (size : Nat) (q : Cell) (checkC : Bool) :
    ∀ (b : List Cell) (out : List Cell),
      (∀ x ∈ b, x.overlap o size = true → (checkC && x.sameCS q) = true) →
      bucketPush o size q checkC out b = out := by
  intro b
  induction b with
  | nil => intro out _; simp [bucketPush]
  | cons z rest ih =>
    intro out hall
    simp only [bucketPush, List.foldl_cons]
    by_cases hov : z.overlap o size = true
    · rw [if_pos hov, if_pos (hall z (List.mem_cons_self _ _) hov)]
      exact ih out (fun x hx => hall x (List.mem_cons_of_mem _ hx))
    · rw [if_neg hov]
      exact ih out (fun x hx => hall x (List.mem_cons_of_mem _ hx))

/-- The accumulator only grows during a walk. -/
theorem walkB_sub (o : Int) (size : Nat) (q : Cell) (checkC : Bool) :
    ∀ (bs : List (List Cell)) (out : List Cell) (y : Cell),
      y ∈ out → y ∈ walkB o size q checkC bs out := by
  intro bs
  induction bs with
  | nil => intro out y hy; simpa [walkB] using hy
  | cons b rest ih =>
    intro out y hy
    simp only [walkB]
    split
    · exact ih _ y (bucketPush_sub o size q checkC b out y hy)
    · exact bucketPush_sub o size q checkC b out y hy

/-- Walk completeness: an allowed overlapping cell of a bucket is
collected (up to sameCS) provided every earlier bucket of the walk
contains an overlapping cell (so the walk does not stop before it). -/
theorem walkB_mem_of (o : Int) (size : Nat) (q : Cell) (checkC : Bool) :
    ∀ (pre : List (List Cell)) (b : List Cell) (rest : List (List Cell))
      (out : List Cell) (x : Cell),
      (∀ b' ∈ pre, ∃ z ∈ b', z.overlap o size = true) →
      x ∈ b → x.overlap o size = true → (checkC = true → x.sameCS q = false) →
      ∃ y ∈ walkB o size q checkC (pre ++ b :: rest) out, y.sameCS x = true := by
  intro pre
  induction pre with
  | nil =>
    intro b rest out x _ hx hov hq
    simp only [List.nil_append, walkB]
    rcases bucketPush_mem_of o size q checkC b out x hx hov hq with ⟨y, hy, hsame⟩
    have hany : b.any (fun z => z.overlap o size) = true :=
      List.any_eq_true.mpr ⟨x, hx, by simpa using hov⟩
    rw [if_pos hany]
    exact ⟨y, walkB_sub o size q checkC rest _ y hy, hsame⟩
  | cons p pre' ih =>
    intro b rest out x hpre hx hov hq
    simp only [List.cons_append, walkB]
    rcases hpre p (List.mem_cons_self _ _) with ⟨z, hz, hzov⟩
    have hany : p.any (fun w => w.overlap o size) = true :=
      List.any_eq_true.mpr ⟨z, hz, by simpa using hzov⟩
    rw [if_pos hany]
    exact ih b rest _ x (fun b' hb' => hpre b' (List.mem_cons_of_mem _ hb')) hx hov hq

/-- Walk soundness: everything collected comes from the accumulator or is
an allowed overlapping cell of some visited bucket. -/
theorem walkB_sound (o : Int) (size : Nat) (q : Cell) (checkC : Bool) :
    ∀ (bs : List (List Cell)) (out : List Cell) (y : Cell),
      y ∈ walkB o size q checkC bs out →
      y ∈ out ∨ ∃ b ∈ bs, y ∈ b ∧ y.overlap o size = true ∧
                (checkC = true → y.sameCS q = false) := by
  intro bs
  induction bs with
  | nil => intro out y hy; exact Or.inl (by simpa [walkB] using hy)
  | cons b rest ih =>
    intro out y hy
    simp only [walkB] at hy
    by_cases hany : b.any (fun x => x.overlap o size) = true
    · rw [if_pos hany] at hy
      rcases ih _ y hy with hout | ⟨b', hb', hmem, hrest⟩
      · rcases bucketPush_sound o size q checkC b out y hout with h | h
        · exact Or.inl h
        · exact Or.inr ⟨b, List.mem_cons_self _ _, h⟩
      · exact Or.inr ⟨b', List.mem_cons_of_mem _ hb', hmem, hrest⟩
    · rw [if_neg hany] at hy
      rcases bucketPush_sound o size q checkC b out y hy with h | h
      · exact Or.inl h
      · exact Or.inr ⟨b, List.mem_cons_self _ _, h⟩

/-- A walk over buckets without any overlapping cell collects nothing. -/
theorem walkB_no_overlap (o : Int) (size : Nat) (q : Cell) (checkC : Bool) :
    ∀ (bs : List (List Cell)),
      (∀ b ∈ bs, ∀ x ∈ b, x.overlap o size = false) →
      walkB o size q checkC bs [] = [] := by
  intro bs hno
  cases bs with
  | nil => simp [walkB]
  | cons b rest =>
    simp only [walkB]
    have hpush : bucketPush o size q checkC [] b = [] := by
      apply bucketPush_id
      intro x hx hov
      rw [hno b (List.mem_cons_self _ _) x hx] at hov
      exact absurd hov (by simp)
    have hany : b.any (fun x => x.overlap o size) = false := by
      cases h : b.any (fun x => x.overlap o size)
      · rfl
      · rcases List.any_eq_true.mp h with ⟨x, hx, hov⟩
        rw [hno b (List.mem_cons_self _ _) x hx] at hov
        simp at hov
    rw [hpush, hany]
    simp

/-- Every collected cell of get_overlap_cells overlaps the query. -/
theorem overlap_of_mem_goc {m : OffsetMap} {o : Int} {size : Nat} {s : Cell}
    (hs : s ∈ get_overlap_cells m o size) : s.overlap o size = true := by
  unfold get_overlap_cells at hs
  rcases walkB_sound _ _ _ _ _ _ _ hs with h1 | ⟨_, _, _, hov, _⟩
  · rcases walkB_sound _ _ _ _ _ _ _ h1 with h2 | ⟨_, _, _, hov, _⟩
    · simp at h2
    · exact hov
  · exact hov

/-- Offset maps are sorted by strictly ascending keys. -/
def omSorted (m : OffsetMap) : Prop :=
  m.Pairwise (fun b b' => b.1 < b'.1)

/-- Buckets of an offset map are nonempty. -/
def omNonempty (m : OffsetMap) : Prop := ∀ b ∈ m, b.2 ≠ []

/-- Cells are stored in the bucket of their offset. -/
def omOffEq (m : OffsetMap) : Prop := ∀ b ∈ m, ∀ c ∈ b.2, c.off = b.1

/-- Every stored cell carries a scalar variable, and that scalar is one of
the cell variables (the memoized scalars of the array-expansion domain). -/
def omScalars (m : OffsetMap) : Prop :=
  ∀ b ∈ m, ∀ c ∈ b.2, ∃ sc, c.scalar = some sc ∧ sc.isCell = true

/-- A membership characterization of lookup on sorted maps. -/
theorem omLookup_of_mem {m : OffsetMap} {k : Int} {cs : List Cell}
    (hs : omSorted m) (h : (k, cs) ∈ m) : omLookup m k = some cs := by
  induction m with
  | nil => simp at h
  | cons b rest ih =>
    rcases List.pairwise_cons.mp hs with ⟨hlt, hrest⟩
    rcases List.mem_cons.mp h with hb | hmem
    · subst hb
      simp [omLookup, List.find?]
    · by_cases hk : b.1 = k
      · exact absurd (hk ▸ hlt (k, cs) hmem) (lt_irrefl k)
      · unfold omLookup
        simp only [List.find?]
        rw [show (decide (b.1 = k)) = false by simp [hk]]
        exact ih hrest hmem

/-- Lookup returns stored buckets. -/
theorem mem_of_omLookup {m : OffsetMap} {k : Int} {cs : List Cell}
    (h : omLookup m k = some cs) : (k, cs) ∈ m := by
  unfold omLookup at h
  cases hf : m.find? (fun b => b.1 = k) with
  | none => rw [hf] at h; simp at h
  | some b =>
    rw [hf] at h
    have hmem := List.mem_of_find?_eq_some hf
    have hpred := List.find?_some hf
    simp only [decide_eq_true_eq] at hpred
    simp only [Option.some.injEq] at h
    have : b = (k, cs) := by
      rcases b with ⟨b1, b2⟩
      simp only at hpred h
      rw [hpred, h]
    exact this ▸ hmem

/-- A failed lookup means the key is absent. -/
theorem omLookup_none_iff {m : OffsetMap} {k : Int} :
    omLookup m k = none ↔ ∀ b ∈ m, b.1 ≠ k := by
  unfold omLookup
  constructor
  · intro h b hb
    cases hf : m.find? (fun b => b.1 = k) with
    | none =>
      have := List.find?_eq_none.mp hf b hb
      simpa using this
    | some b' => rw [hf] at h; simp at h
  · intro h
    cases hf : m.find? (fun b => b.1 = k) with
    | none => rfl
    | some b' =>
      have hmem := List.mem_of_find?_eq_some hf
      have hpred := List.find?_some hf
      simp only [decide_eq_true_eq] at hpred
      exact absurd hpred (h b' hmem)

/-- Keys are unchanged by bucket replacement. -/
theorem omSetKey_keys (m : OffsetMap) (k : Int) (cs : List Cell) :
    (omSetKey m k cs).map Prod.fst = m.map Prod.fst := by
  unfold omSetKey
  rw [List.map_map]
  apply List.map_congr_left
  intro b _
  by_cases h : b.1 = k
  · simp [h]
  · simp [h]

/-- Bucket replacement preserves sortedness. -/
theorem omSorted_setKey {m : OffsetMap} (hs : omSorted m) (k : Int) (cs : List Cell) :
    omSorted (omSetKey m k cs) := by
  unfold omSorted omSetKey at *
  refine List.Pairwise.map _ (fun a b hab => ?_) hs
  split <;> split <;> (try dsimp only) <;> omega

/-- Key removal preserves sortedness. -/
theorem omSorted_eraseKey {m : OffsetMap} (hs : omSorted m) (k : Int) :
    omSorted (omEraseKey m k) := by
  unfold omSorted omEraseKey at *
  exact hs.sublist (List.filter_sublist m)

/-- Lookup after replacing another key. -/
theorem omLookup_setKey_other {m : OffsetMap} (hs : omSorted m) {k k' : Int}
    (h : k' ≠ k) (cs : List Cell) :
    omLookup (omSetKey m k cs) k' = omLookup m k' := by
  cases hl : omLookup m k' with
  | some cs' =>
    have hmem := mem_of_omLookup hl
    have hmem' : (k', cs') ∈ omSetKey m k cs := by
      unfold omSetKey
      refine List.mem_map.mpr ⟨(k', cs'), hmem, ?_⟩
      rw [if_neg (by simpa using h)]
    exact omLookup_of_mem (omSorted_setKey hs k cs) hmem'
  | none =>
    apply omLookup_none_iff.mpr
    intro b hb
    unfold omSetKey at hb
    rcases List.mem_map.mp hb with ⟨b0, hb0, hmap⟩
    by_cases hbk : b0.1 = k
    · rw [if_pos hbk] at hmap
      rw [← hmap]
      exact Ne.symm h
    · rw [if_neg hbk] at hmap
      rw [← hmap]
      exact omLookup_none_iff.mp hl b0 hb0

/-- Lookup after replacing a present key. -/
theorem omLookup_setKey_self {m : OffsetMap} (hs : omSorted m) {k : Int}
    {cs0 : List Cell} (h : omLookup m k = some cs0) (cs : List Cell) :
    omLookup (omSetKey m k cs) k = some cs := by
  have hmem := mem_of_omLookup h
  have hmem' : (k, cs) ∈ omSetKey m k cs := by
    unfold omSetKey
    exact List.mem_map.mpr ⟨(k, cs0), hmem, by rw [if_pos rfl]⟩
  exact omLookup_of_mem (omSorted_setKey hs k cs) hmem'

/-- Lookup after erasing the key. -/
theorem omLookup_eraseKey_self (m : OffsetMap) (k : Int) :
    omLookup (omEraseKey m k) k = none := by
  apply omLookup_none_iff.mpr
  intro b hb
  have := List.of_mem_filter hb
  simpa using this

/-- Lookup after erasing another key. -/
theorem omLookup_eraseKey_other {m : OffsetMap} (hs : omSorted m) {k k' : Int}
    (h : k' ≠ k) : omLookup (omEraseKey m k) k' = omLookup m k' := by
  cases hl : omLookup m k' with
  | some cs' =>
    have hmem := mem_of_omLookup hl
    have hmem' : (k', cs') ∈ omEraseKey m k :=
      List.mem_filter.mpr ⟨hmem, by simpa using h⟩
    exact omLookup_of_mem (omSorted_eraseKey hs k) hmem'
  | none =>
    apply omLookup_none_iff.mpr
    intro b hb
    exact omLookup_none_iff.mp hl b (List.mem_of_mem_filter hb)

/-- Membership in an ordered key insertion. -/
theorem mem_omInsertKey {m : OffsetMap} {k : Int} {cs : List Cell} {b : Int × List Cell} :
    b ∈ omInsertKey m k cs ↔ b = (k, cs) ∨ b ∈ m := by
  induction m with
  | nil => simp [omInsertKey]
  | cons b0 rest ih =>
    unfold omInsertKey
    by_cases hlt : k < b0.1
    · rw [if_pos hlt]
      simp [List.mem_cons, or_assoc]
    · rw [if_neg hlt]
      simp only [List.mem_cons, ih]
      tauto

/-- Ordered insertion of a fresh key preserves sortedness. -/
theorem omSorted_insertKey {m : OffsetMap} (hs : omSorted m) {k : Int}
    (hfresh : ∀ b ∈ m, b.1 ≠ k) (cs : List Cell) :
    omSorted (omInsertKey m k cs) := by
  unfold omSorted at *
  induction m with
  | nil => simp [omInsertKey]
  | cons b0 rest ih =>
    rcases List.pairwise_cons.mp hs with ⟨hlt, hrest⟩
    unfold omInsertKey
    by_cases hk : k < b0.1
    · rw [if_pos hk]
      refine List.pairwise_cons.mpr ⟨?_, hs⟩
      intro b hb
      rcases List.mem_cons.mp hb with hb0 | hbr
      · subst hb0; exact hk
      · exact lt_trans hk (hlt b hbr)
    · rw [if_neg hk]
      refine List.pairwise_cons.mpr ⟨?_, ih hrest (fun b hb => hfresh b (List.mem_cons_of_mem _ hb))⟩
      intro b hb
      rcases mem_omInsertKey.mp hb with hbk | hbm
      · subst hbk
        have : b0.1 ≠ k := hfresh b0 (List.mem_cons_self _ _)
        simp only
        omega
      · exact hlt b hbm

/-- Lookup of the freshly inserted key. -/
theorem omLookup_insertKey_self {m : OffsetMap} (hs : omSorted m) {k : Int}
    (hfresh : ∀ b ∈ m, b.1 ≠ k) (cs : List Cell) :
    omLookup (omInsertKey m k cs) k = some cs :=
  omLookup_of_mem (omSorted_insertKey hs hfresh cs) (mem_omInsertKey.mpr (Or.inl rfl))

/-- Lookup of other keys after an ordered insertion. -/
theorem omLookup_insertKey_other {m : OffsetMap} (hs : omSorted m) {k k' : Int}
    (hfresh : ∀ b ∈ m, b.1 ≠ k) (h : k' ≠ k) (cs : List Cell) :
    omLookup (omInsertKey m k cs) k' = omLookup m k' := by
  cases hl : omLookup m k' with
  | some cs' =>
    exact omLookup_of_mem (omSorted_insertKey hs hfresh cs)
      (mem_omInsertKey.mpr (Or.inr (mem_of_omLookup hl)))
  | none =>
    apply omLookup_none_iff.mpr
    intro b hb
    rcases mem_omInsertKey.mp hb with hbk | hbm
    · subst hbk; exact Ne.symm h
    · exact omLookup_none_iff.mp hl b hbm

/-- Membership in a bucket insertion. -/
theorem mem_bucketInsert {b : List Cell} {c x : Cell} :
    x ∈ bucketInsert b c ↔ x ∈ b ∨ x = c := by
  induction b with
  | nil => simp [bucketInsert]
  | cons z rest ih =>
    unfold bucketInsert
    by_cases hlt : c.size < z.size
    · rw [if_pos hlt]
      simp only [List.mem_cons]
      tauto
    · rw [if_neg hlt]
      simp only [List.mem_cons, ih]
      tauto

/-- Bucket membership via lookup. -/
theorem mem_omBucket_iff {m : OffsetMap} {k : Int} {x : Cell} :
    x ∈ omBucket m k ↔ ∃ cs, omLookup m k = some cs ∧ x ∈ cs := by
  unfold omBucket
  cases h : omLookup m k <;> simp

/-- Inserting a cell preserves sortedness. -/
theorem omSorted_insertCell {m : OffsetMap} (hs : omSorted m) (c : Cell) :
    omSorted (omInsertCell m c) := by
  unfold omInsertCell
  cases h : omLookup m c.off with
  | some cs =>
    dsimp only
    by_cases hany : cs.any (fun x => x.sameCS c) = true
    · rw [if_pos hany]; exact hs
    · rw [if_neg hany]; exact omSorted_setKey hs _ _
  | none =>
    exact omSorted_insertKey hs (omLookup_none_iff.mp h) [c]

/-- Removing a cell preserves sortedness. -/
theorem omSorted_removeCell {m : OffsetMap} (hs : omSorted m) (c : Cell) :
    omSorted (omRemoveCell m c) := by
  unfold omRemoveCell
  cases h : omLookup m c.off with
  | some cs =>
    dsimp only
    by_cases hany : cs.any (fun x => x.sameCS c) = true
    · rw [if_pos hany]
      by_cases hemp : (cs.filter (fun x => !(x.sameCS c))).isEmpty = true
      · rw [if_pos hemp]; exact omSorted_eraseKey hs _
      · rw [if_neg hemp]; exact omSorted_setKey hs _ _
    · rw [if_neg hany]; exact hs
  | none => exact hs

/-- Removing a list of cells preserves sortedness. -/
theorem omSorted_removeCells {m : OffsetMap} (hs : omSorted m) (S : List Cell) :
    omSorted (omRemoveCells m S) := by
  induction S generalizing m with
  | nil => exact hs
  | cons s rest ih => exact ih (omSorted_removeCell hs s)

/-- Buckets of other keys are unchanged by a cell insertion. -/
theorem omBucket_insertCell_other {m : OffsetMap} (hs : omSorted m) {c : Cell}
    {k : Int} (h : k ≠ c.off) : omBucket (omInsertCell m c) k = omBucket m k := by
  unfold omBucket omInsertCell
  cases hl : omLookup m c.off with
  | some cs =>
    dsimp only
    by_cases hany : cs.any (fun x => x.sameCS c) = true
    · rw [if_pos hany]
    · rw [if_neg hany, omLookup_setKey_other hs h]
  | none =>
    rw [omLookup_insertKey_other hs (omLookup_none_iff.mp hl) h]

/-- Cells in the bucket of the inserted key come from the old bucket or
are the inserted cell. -/
theorem mem_omBucket_insertCell_self {m : OffsetMap} (hs : omSorted m) {c x : Cell}
    (hx : x ∈ omBucket (omInsertCell m c) c.off) :
    x ∈ omBucket m c.off ∨ x = c := by
  unfold omInsertCell at hx
  cases hl : omLookup m c.off with
  | some cs =>
    rw [hl] at hx
    dsimp only at hx
    by_cases hany : cs.any (fun w => w.sameCS c) = true
    · rw [if_pos hany] at hx
      exact Or.inl hx
    · rw [if_neg hany] at hx
      rcases mem_omBucket_iff.mp hx with ⟨cs', hcs', hxin⟩
      rw [omLookup_setKey_self hs hl] at hcs'
      have : cs' = bucketInsert cs c := by injection hcs' with hh; exact hh.symm
      subst this
      rcases mem_bucketInsert.mp hxin with h | h
      · exact Or.inl (mem_omBucket_iff.mpr ⟨cs, hl, h⟩)
      · exact Or.inr h
  | none =>
    rw [hl] at hx
    rcases mem_omBucket_iff.mp hx with ⟨cs', hcs', hxin⟩
    rw [omLookup_insertKey_self hs (omLookup_none_iff.mp hl) [c]] at hcs'
    have : cs' = [c] := by injection hcs' with hh; exact hh.symm
    subst this
    exact Or.inr (List.mem_singleton.mp hxin)

/-- The inserted cell is present afterwards, provided no equal cell was
stored (the insertion is a no-op otherwise). -/
theorem self_mem_omBucket_insertCell {m : OffsetMap} (hs : omSorted m) {c : Cell}
    (hno : ∀ x ∈ omBucket m c.off, x.sameCS c = false) :
    c ∈ omBucket (omInsertCell m c) c.off := by
  unfold omInsertCell
  cases hl : omLookup m c.off with
  | some cs =>
    dsimp only
    have hany : cs.any (fun w => w.sameCS c) = false := by
      cases h : cs.any (fun w => w.sameCS c)
      · rfl
      · rcases List.any_eq_true.mp h with ⟨w, hw, hsame⟩
        have := hno w (mem_omBucket_iff.mpr ⟨cs, hl, hw⟩)
        rw [this] at hsame
        exact absurd hsame (by simp)
    rw [hany]
    simp only [Bool.false_eq_true, if_false]
    exact mem_omBucket_iff.mpr
      ⟨bucketInsert cs c, omLookup_setKey_self hs hl _, mem_bucketInsert.mpr (Or.inr rfl)⟩
  | none =>
    exact mem_omBucket_iff.mpr
      ⟨[c], omLookup_insertKey_self hs (omLookup_none_iff.mp hl) [c],
       List.mem_singleton.mpr rfl⟩

/-- Cells surviving a removal were stored and are not the removed one. -/
theorem mem_omBucket_removeCell {m : OffsetMap} (hs : omSorted m) {c x : Cell}
    {k : Int} (hx : x ∈ omBucket (omRemoveCell m c) k) :
    x ∈ omBucket m k ∧ (c.off = k → x.sameCS c = false) := by
  unfold omRemoveCell at hx
  cases hl : omLookup m c.off with
  | some cs =>
    rw [hl] at hx
    dsimp only at hx
    by_cases hany : cs.any (fun w => w.sameCS c) = true
    · rw [if_pos hany] at hx
      by_cases hemp : (cs.filter (fun w => !(w.sameCS c))).isEmpty = true
      · rw [if_pos hemp] at hx
        by_cases hk : k = c.off
        · subst hk
          rcases mem_omBucket_iff.mp hx with ⟨cs', hcs', _⟩
          rw [omLookup_eraseKey_self] at hcs'
          simp at hcs'
        · rcases mem_omBucket_iff.mp hx with ⟨cs', hcs', hxin⟩
          rw [omLookup_eraseKey_other hs hk] at hcs'
          exact ⟨mem_omBucket_iff.mpr ⟨cs', hcs', hxin⟩, fun h => absurd h.symm hk⟩
      · rw [if_neg hemp] at hx
        by_cases hk : k = c.off
        · subst hk
          rcases mem_omBucket_iff.mp hx with ⟨cs', hcs', hxin⟩
          rw [omLookup_setKey_self hs hl] at hcs'
          have : cs' = cs.filter (fun w => !(w.sameCS c)) := by injection hcs' with hh; exact hh.symm
          subst this
          have hmem := List.mem_of_mem_filter hxin
          have hcond := List.of_mem_filter hxin
          simp only [Bool.not_eq_true', decide_eq_true_eq] at hcond
          exact ⟨mem_omBucket_iff.mpr ⟨cs, hl, hmem⟩, fun _ => by simpa using hcond⟩
        · rcases mem_omBucket_iff.mp hx with ⟨cs', hcs', hxin⟩
          rw [omLookup_setKey_other hs hk] at hcs'
          exact ⟨mem_omBucket_iff.mpr ⟨cs', hcs', hxin⟩, fun h => absurd h.symm hk⟩
    · rw [if_neg hany] at hx
      refine ⟨hx, fun hk => ?_⟩
      subst hk
      rcases mem_omBucket_iff.mp hx with ⟨cs', hcs', hxin⟩
      rw [hl] at hcs'
      have : cs' = cs := by injection hcs' with hh; exact hh.symm
      subst this
      cases hsame : x.sameCS c
      · rfl
      · exact absurd (List.any_eq_true.mpr ⟨x, hxin, by simpa using hsame⟩) hany
  | none =>
    rw [hl] at hx
    refine ⟨hx, fun hk => ?_⟩
    subst hk
    rcases mem_omBucket_iff.mp hx with ⟨cs', hcs', _⟩
    rw [hl] at hcs'
    simp at hcs'

/-- A stored cell not matched by the removed one survives. -/
theorem mem_omBucket_removeCell_of {m : OffsetMap} (hs : omSorted m) {c x : Cell}
    {k : Int} (hx : x ∈ omBucket m k)
    (hno : ¬(c.off = k ∧ x.sameCS c = true)) :
    x ∈ omBucket (omRemoveCell m c) k := by
  unfold omRemoveCell
  cases hl : omLookup m c.off with
  | some cs =>
    dsimp only
    by_cases hany : cs.any (fun w => w.sameCS c) = true
    · rw [if_pos hany]
      by_cases hk : c.off = k
      · subst hk
        rcases mem_omBucket_iff.mp hx with ⟨cs0, hcs0, hxin⟩
        rw [hl] at hcs0
        have hcseq : cs0 = cs := by injection hcs0 with hh; exact hh.symm
        rw [hcseq] at hxin
        have hxs : x.sameCS c = false := by
          cases h : x.sameCS c
          · rfl
          · exact absurd ⟨rfl, h⟩ hno
        have hxin' : x ∈ cs.filter (fun w => !(w.sameCS c)) :=
          List.mem_filter.mpr ⟨hxin, by simp [hxs]⟩
        have hemp : (cs.filter (fun w => !(w.sameCS c))).isEmpty = false := by
          cases h : (cs.filter (fun w => !(w.sameCS c))).isEmpty
          · rfl
          · rw [List.isEmpty_iff] at h
            rw [h] at hxin'
            simp at hxin'
        rw [hemp]
        simp only [Bool.false_eq_true, if_false]
        exact mem_omBucket_iff.mpr
          ⟨cs.filter (fun w => !(w.sameCS c)), omLookup_setKey_self hs hl _, hxin'⟩
      · by_cases hemp : (cs.filter (fun w => !(w.sameCS c))).isEmpty = true
        · rw [if_pos hemp]
          rcases mem_omBucket_iff.mp hx with ⟨cs0, hcs0, hxin⟩
          exact mem_omBucket_iff.mpr
            ⟨cs0, by rw [omLookup_eraseKey_other hs (Ne.symm hk)]; exact hcs0, hxin⟩
        · rw [if_neg hemp]
          rcases mem_omBucket_iff.mp hx with ⟨cs0, hcs0, hxin⟩
          exact mem_omBucket_iff.mpr
            ⟨cs0, by rw [omLookup_setKey_other hs (Ne.symm hk)]; exact hcs0, hxin⟩
    · rw [if_neg hany]
      exact hx
  | none => exact hx

/-- Surviving cells of a batch removal were stored and match none of the
removed cells at their offset. -/
theorem mem_omBucket_removeCells {m : OffsetMap} (hs : omSorted m) {S : List Cell}
    {x : Cell} {k : Int} (hx : x ∈ omBucket (omRemoveCells m S) k) :
    x ∈ omBucket m k ∧ ∀ s ∈ S, s.off = k → x.sameCS s = false := by
  induction S generalizing m with
  | nil => exact ⟨hx, by simp⟩
  | cons s rest ih =>
    have hx' := ih (omSorted_removeCell hs s) hx
    rcases hx' with ⟨hx1, hrest⟩
    rcases mem_omBucket_removeCell hs hx1 with ⟨hx0, hcond⟩
    refine ⟨hx0, ?_⟩
    intro s' hs' hoff
    rcases List.mem_cons.mp hs' with h | h
    · subst h; exact hcond hoff
    · exact hrest s' h hoff

/-- A stored cell matching no removed cell survives a batch removal. -/
theorem mem_omBucket_removeCells_of {m : OffsetMap} (hs : omSorted m) {S : List Cell}
    {x : Cell} {k : Int} (hx : x ∈ omBucket m k)
    (hno : ∀ s ∈ S, ¬(s.off = k ∧ x.sameCS s = true)) :
    x ∈ omBucket (omRemoveCells m S) k := by
  induction S generalizing m with
  | nil => exact hx
  | cons s rest ih =>
    exact ih (omSorted_removeCell hs s)
      (mem_omBucket_removeCell_of hs hx (hno s (List.mem_cons_self _ _)))
      (fun s' h => hno s' (List.mem_cons_of_mem _ h))

/-- A nonempty bucket that a batch removal empties contained a cell
matched by one of the removed cells. -/
theorem bucket_vanish {m : OffsetMap} (hs : omSorted m) {S : List Cell} {k : Int}
    (hne : omBucket m k ≠ [])
    (hemp : omBucket (omRemoveCells m S) k = []) :
    ∃ y ∈ omBucket m k, ∃ s ∈ S, s.off = k ∧ y.sameCS s = true := by
  rcases List.exists_mem_of_ne_nil _ hne with ⟨y, hy⟩
  · by_cases hmatch : ∃ s ∈ S, s.off = k ∧ y.sameCS s = true
    · rcases hmatch with ⟨s, hsin, hcond⟩
      exact ⟨y, hy, s, hsin, hcond⟩
    · exfalso
      push_neg at hmatch
      have : y ∈ omBucket (omRemoveCells m S) k := by
        apply mem_omBucket_removeCells_of hs hy
        intro s hsin hc
        exact absurd hc.2 (by simpa [hc.1] using hmatch s hsin hc.1)
      rw [hemp] at this
      simp at this

/-- Lookup of other keys is unchanged by a cell insertion. -/
theorem omLookup_insertCell_other {m : OffsetMap} (hs : omSorted m) {c : Cell}
    {k : Int} (h : k ≠ c.off) : omLookup (omInsertCell m c) k = omLookup m k := by
  unfold omInsertCell
  cases hl : omLookup m c.off with
  | some cs =>
    dsimp only
    by_cases hany : cs.any (fun x => x.sameCS c) = true
    · rw [if_pos hany]
    · rw [if_neg hany, omLookup_setKey_other hs h]
  | none =>
    rw [omLookup_insertKey_other hs (omLookup_none_iff.mp hl) h]

/-- Entries at other keys persist through a cell insertion. -/
theorem mem_insertCell_of_ne {m : OffsetMap} (hs : omSorted m) {c : Cell}
    {k : Int} {cs : List Cell} (hmem : (k, cs) ∈ m) (h : k ≠ c.off) :
    (k, cs) ∈ omInsertCell m c :=
  mem_of_omLookup (by rw [omLookup_insertCell_other hs h]; exact omLookup_of_mem hs hmem)

/-- Entries at other keys of a cell insertion come from the base map. -/
theorem mem_insertCell_ne {m : OffsetMap} (hs : omSorted m) {c : Cell}
    {k : Int} {cs : List Cell} (hmem : (k, cs) ∈ omInsertCell m c) (h : k ≠ c.off) :
    (k, cs) ∈ m := by
  have hl := omLookup_of_mem (omSorted_insertCell hs c) hmem
  rw [omLookup_insertCell_other hs h] at hl
  exact mem_of_omLookup hl

/-- Old cells of the bucket persist through a cell insertion there. -/
theorem mem_omBucket_insertCell_of_self {m : OffsetMap} (hs : omSorted m) {c x : Cell}
    (hx : x ∈ omBucket m c.off) : x ∈ omBucket (omInsertCell m c) c.off := by
  unfold omInsertCell
  cases hl : omLookup m c.off with
  | some cs =>
    dsimp only
    by_cases hany : cs.any (fun w => w.sameCS c) = true
    · rw [if_pos hany]; exact hx
    · rw [if_neg hany]
      rcases mem_omBucket_iff.mp hx with ⟨cs0, hcs0, hxin⟩
      rw [hl] at hcs0
      have hcseq : cs0 = cs := by injection hcs0 with hh; exact hh.symm
      rw [hcseq] at hxin
      exact mem_omBucket_iff.mpr
        ⟨bucketInsert cs c, omLookup_setKey_self hs hl _, mem_bucketInsert.mpr (Or.inl hxin)⟩
  | none =>
    rcases mem_omBucket_iff.mp hx with ⟨cs0, hcs0, _⟩
    rw [hl] at hcs0
    simp at hcs0

/-- Decomposition of the key range up to o around a present key k ≤ o,
for sorted maps: smaller keys first, then the bucket of k, then the keys
strictly between k and o. -/
theorem sorted_filter_decomp_le {m : OffsetMap} (hs : omSorted m) {k : Int}
    {cs : List Cell} (hmem : (k, cs) ∈ m) {o : Int} (hko : k ≤ o) :
    m.filter (fun b => b.1 ≤ o)
      = m.filter (fun b => b.1 < k)
        ++ (k, cs) :: m.filter (fun b => k < b.1 ∧ b.1 ≤ o) := by
  induction m with
  | nil => simp at hmem
  | cons b rest ih =>
    rcases List.pairwise_cons.mp hs with ⟨hlt, hrest⟩
    rcases List.mem_cons.mp hmem with hb | hmem'
    · subst hb
      simp only [List.filter]
      rw [show (decide ((k, cs).1 ≤ o)) = true by simp [hko],
          show (decide ((k, cs).1 < k)) = false by simp,
          show (decide (k < (k, cs).1 ∧ (k, cs).1 ≤ o)) = false by simp]
      have hnil : rest.filter (fun b => b.1 < k) = [] := by
        apply List.filter_eq_nil_iff.mpr
        intro b hb
        have := hlt b hb
        simp only [decide_eq_true_eq]
        omega
      rw [hnil]
      simp only [List.nil_append, List.cons.injEq, true_and]
      apply List.filter_congr
      intro b hb
      have hgt := hlt b hb
      rw [decide_eq_decide]
      constructor
      · intro hh; exact ⟨hgt, hh⟩
      · intro hh; exact hh.2
    · have hbk : b.1 < k := hlt (k, cs) hmem'
      simp only [List.filter]
      rw [show (decide (b.1 ≤ o)) = true by simp; omega,
          show (decide (b.1 < k)) = true by simp [hbk],
          show (decide (k < b.1 ∧ b.1 ≤ o)) = false by simp; omega]
      rw [ih hrest hmem']
      simp

/-- Decomposition of the key range above o around a present key k > o,
for sorted maps. -/
theorem sorted_filter_decomp_gt {m : OffsetMap} (hs : omSorted m) {k : Int}
    {cs : List Cell} (hmem : (k, cs) ∈ m) {o : Int} (hko : o < k) :
    m.filter (fun b => o < b.1)
      = m.filter (fun b => o < b.1 ∧ b.1 < k)
        ++ (k, cs) :: m.filter (fun b => k < b.1) := by
  induction m with
  | nil => simp at hmem
  | cons b rest ih =>
    rcases List.pairwise_cons.mp hs with ⟨hlt, hrest⟩
    rcases List.mem_cons.mp hmem with hb | hmem'
    · subst hb
      simp only [List.filter]
      rw [show (decide (o < (k, cs).1)) = true by simp [hko],
          show (decide (o < (k, cs).1 ∧ (k, cs).1 < k)) = false by simp,
          show (decide (k < (k, cs).1)) = false by simp]
      have hnil : rest.filter (fun b => o < b.1 ∧ b.1 < k) = [] := by
        apply List.filter_eq_nil_iff.mpr
        intro b hb
        have := hlt b hb
        simp only [decide_eq_true_eq]
        omega
      rw [hnil]
      simp only [List.nil_append, List.cons.injEq, true_and]
      apply List.filter_congr
      intro b hb
      have hgt := hlt b hb
      rw [decide_eq_decide]
      constructor
      · intro _; exact hgt
      · intro _; exact lt_trans hko hgt
    · have hbk : b.1 < k := hlt (k, cs) hmem'
      simp only [List.filter]
      by_cases hbo : o < b.1
      · rw [show (decide (o < b.1)) = true by simp [hbo],
            show (decide (o < b.1 ∧ b.1 < k)) = true by simp [hbo, hbk],
            show (decide (k < b.1)) = false by simp; omega]
        rw [ih hrest hmem']
        simp
      · rw [show (decide (o < b.1)) = false by simp [hbo],
            show (decide (o < b.1 ∧ b.1 < k)) = false by simp [hbo],
            show (decide (k < b.1)) = false by simp; omega]
        exact ih hrest hmem'

/-- find? finds a member satisfying the predicate uniquely. -/
theorem find?_eq_some_of_unique {p : Cell → Bool} {l : List Cell} {x : Cell}
    (hx : x ∈ l) (hp : p x = true) (huniq : ∀ y ∈ l, p y = true → y = x) :
    l.find? p = some x := by
  induction l with
  | nil => simp at hx
  | cons z rest ih =>
    rcases List.mem_cons.mp hx with hz | hx'
    · subst hz
      simp [List.find?, hp]
    · cases hz : p z with
      | true =>
        have := huniq z (List.mem_cons_self _ _) hz
        subst this
        simp [List.find?, hz]
      | false =>
        simp only [List.find?, hz]
        exact ih hx' (fun y hy hpy => huniq y (List.mem_cons_of_mem _ hy) hpy)

/-- A found cell is stored at the query offset and agrees with it. -/
theorem getCell_mem {m : OffsetMap} {o : Int} {size : Nat} {c : Cell}
    (h : getCell m o size = some c) :
    c ∈ omBucket m o ∧ c.sameCS ⟨o, size, none⟩ = true := by
  unfold getCell at h
  cases hl : omLookup m o with
  | none => rw [hl] at h; simp at h
  | some cs =>
    rw [hl] at h
    dsimp only at h
    exact ⟨mem_omBucket_iff.mpr ⟨cs, hl, List.mem_of_find?_eq_some h⟩,
           by have := List.find?_some h; simpa using this⟩

/-- A failed exact-match query means no stored cell agrees. -/
theorem getCell_none_no_same {m : OffsetMap} {o : Int} {size : Nat}
    (h : getCell m o size = none) :
    ∀ x ∈ omBucket m o, x.sameCS ⟨o, size, none⟩ = false := by
  intro x hx
  unfold getCell at h
  rcases mem_omBucket_iff.mp hx with ⟨cs, hcs, hxin⟩
  rw [hcs] at h
  dsimp only at h
  have := List.find?_eq_none.mp h x hxin
  simpa using this

/-- mk_cell leaves the returned cell retrievable. -/
theorem mkCell_getCell {a : AVar} {m : OffsetMap} {o : Int} {size : Nat}
    (hs : omSorted m) :
    getCell (mkCell a m o size).1 o size = some (mkCell a m o size).2 := by
  unfold mkCell
  cases hg : getCell m o size with
  | some c => exact hg
  | none =>
    dsimp only
    set c : Cell := ⟨o, size, some (AVar.cellV a.idx o size a.type.elemType)⟩ with hc
    have hco : c.off = o := rfl
    unfold getCell omInsertCell
    rw [← hco]
    cases hl : omLookup m c.off with
    | some cs =>
      dsimp only
      have hany : cs.any (fun x => x.sameCS c) = false := by
        cases hh : cs.any (fun x => x.sameCS c)
        · rfl
        · rcases List.any_eq_true.mp hh with ⟨w, hw, hsame⟩
          have hw' : w ∈ omBucket m o := mem_omBucket_iff.mpr ⟨cs, by rw [← hco]; exact hl, hw⟩
          have := getCell_none_no_same hg w hw'
          have hsame' : w.sameCS ⟨o, size, none⟩ = true := by
            rcases Cell.sameCS_iff.mp hsame with ⟨h1, h2⟩
            exact Cell.sameCS_iff.mpr ⟨h1, h2⟩
          rw [this] at hsame'
          exact absurd hsame' (by simp)
      rw [hany]
      simp only [Bool.false_eq_true, if_false]
      rw [omLookup_setKey_self hs hl]
      dsimp only
      apply find?_eq_some_of_unique (mem_bucketInsert.mpr (Or.inr rfl))
      · exact Cell.sameCS_iff.mpr ⟨rfl, rfl⟩
      · intro y hy hpy
        rcases mem_bucketInsert.mp hy with hym | hyc
        · have hy' : y ∈ omBucket m o := mem_omBucket_iff.mpr ⟨cs, by rw [← hco]; exact hl, hym⟩
          have := getCell_none_no_same hg y hy'
          rw [this] at hpy
          exact absurd hpy (by simp)
        · exact hyc
    | none =>
      rw [omLookup_insertKey_self hs (omLookup_none_iff.mp hl) [c]]
      dsimp only
      simp only [List.find?]
      rw [show ((Cell.sameCS c ⟨o, size, none⟩)) = true from Cell.sameCS_iff.mpr ⟨rfl, rfl⟩]

/-- Offset and size of the cell mk_cell returns. -/
theorem mkCell_off_size {a : AVar} {m : OffsetMap} {o : Int} {size : Nat} :
    (mkCell a m o size).2.off = o ∧ (mkCell a m o size).2.size = size := by
  unfold mkCell
  cases hg : getCell m o size with
  | some c =>
    rcases getCell_mem hg with ⟨_, hsame⟩
    exact Cell.sameCS_iff.mp hsame
  | none => exact ⟨rfl, rfl⟩

/-- mk_cell preserves sortedness. -/
theorem mkCell_sorted {a : AVar} {m : OffsetMap} {o : Int} {size : Nat}
    (hs : omSorted m) : omSorted (mkCell a m o size).1 := by
  unfold mkCell
  cases hg : getCell m o size with
  | some c => exact hs
  | none => exact omSorted_insertCell hs _

/-- Buckets at other offsets are unchanged by mk_cell. -/
theorem mkCell_bucket_other {a : AVar} {m : OffsetMap} {o : Int} {z : Nat}
    (hs : omSorted m) {k : Int} (h : k ≠ o) :
    omBucket (mkCell a m o z).1 k = omBucket m k := by
  unfold mkCell
  cases hg : getCell m o z with
  | some c => rfl
  | none => exact omBucket_insertCell_other hs h

/-- The scalar of the cell mk_cell returns is a memoized cell variable. -/
theorem mkCell_scalar {a : AVar} {m : OffsetMap} {o : Int} {z : Nat}
    (hsc : omScalars m) :
    ∃ sc, (mkCell a m o z).2.scalar = some sc ∧ sc.isCell = true := by
  unfold mkCell
  cases hg : getCell m o z with
  | some c =>
    rcases getCell_mem hg with ⟨hmem, _⟩
    rcases mem_omBucket_iff.mp hmem with ⟨cs, hcs, hcin⟩
    exact hsc (o, cs) (mem_of_omLookup hcs) c hcin
  | none => exact ⟨AVar.cellV a.idx o z a.type.elemType, rfl, rfl⟩

/-- Reversal of a list split around an element. -/
theorem reverse_decomp {α : Type} (A B : List α) (c : α) :
    (A ++ c :: B).reverse = B.reverse ++ c :: A.reverse := by
  simp

/-- The query cell agrees with the query. -/
theorem gocQ_off_size (m : OffsetMap) (o : Int) (size : Nat) :
    (gocQ m o size).off = o ∧ (gocQ m o size).size = size := by
  unfold gocQ
  cases hg : getCell m o size with
  | some c => exact Cell.sameCS_iff.mp (getCell_mem hg).2
  | none => exact ⟨rfl, rfl⟩

/-- The walk map is sorted. -/
theorem gocM_sorted {m : OffsetMap} (hs : omSorted m) (o : Int) (size : Nat) :
    omSorted (gocM m o size) := by
  unfold gocM
  split
  · exact hs
  · exact omSorted_insertCell hs _

/-- The query cell sits in the bucket at o of the walk map. -/
theorem gocQ_mem_gocM {m : OffsetMap} (hs : omSorted m) (o : Int) (size : Nat) :
    gocQ m o size ∈ omBucket (gocM m o size) o := by
  unfold gocQ gocM
  cases hg : getCell m o size with
  | some c =>
    simp only [Option.isSome_some, if_true]
    exact (getCell_mem hg).1
  | none =>
    simp only [Option.isSome_none, Bool.false_eq_true, if_false]
    have := self_mem_omBucket_insertCell (c := ⟨o, size, none⟩) hs
      (by intro x hx
          exact getCell_none_no_same hg x hx)
    exact this

/-- Entries at other keys of the walk map are entries of the base map. -/
theorem mem_gocM_ne {m : OffsetMap} (hs : omSorted m) {o : Int} {size : Nat}
    {k : Int} {cs : List Cell} (hmem : (k, cs) ∈ gocM m o size) (h : k ≠ o) :
    (k, cs) ∈ m := by
  unfold gocM at hmem
  split at hmem
  · exact hmem
  · exact mem_insertCell_ne hs hmem h

/-- Entries of the base map persist into the walk map at other keys. -/
theorem mem_gocM_of_ne {m : OffsetMap} (hs : omSorted m) {o : Int} {size : Nat}
    {k : Int} {cs : List Cell} (hmem : (k, cs) ∈ m) (h : k ≠ o) :
    (k, cs) ∈ gocM m o size := by
  unfold gocM
  split
  · exact hmem
  · exact mem_insertCell_of_ne hs hmem h

/-- Cells of the bucket at o persist into the walk map. -/
theorem mem_gocM_bucket_o {m : OffsetMap} (hs : omSorted m) {o : Int} {size : Nat}
    {x : Cell} (hx : x ∈ omBucket m o) : x ∈ omBucket (gocM m o size) o := by
  unfold gocM
  split
  · exact hx
  · exact mem_omBucket_insertCell_of_self (c := ⟨o, size, none⟩) hs hx

/-- Central argument of the store-then-load scenario: a cell that
overlaps (o, size), is not the exact (o, size) cell, and survives the
removal of the overlap set cannot exist in a bucket whose in-between
buckets (towards o) were all emptied by that removal: the original
overlap walk would have reached and collected it. -/
theorem killed_matched {m : OffsetMap} (hs : omSorted m) (hne : omNonempty m)
    (hoe : omOffEq m) {o : Int} {size : Nat} (hsz : 1 ≤ size)
    {k : Int} {x : Cell}
    (hx1 : x ∈ omBucket (omRemoveCells m (get_overlap_cells m o size)) k)
    (hov : x.overlap o size = true)
    (hq0 : x.sameCS ⟨o, size, none⟩ = false)
    (hbet : ∀ kk, (k < kk ∧ kk < o) ∨ (o < kk ∧ kk < k) →
        omBucket (omRemoveCells m (get_overlap_cells m o size)) kk = []) :
    False := by
  have hmts : omSorted (gocM m o size) := gocM_sorted hs o size
  have hqos := gocQ_off_size m o size
  rcases mem_omBucket_removeCells hs hx1 with ⟨hxm, hsur⟩
  rcases mem_omBucket_iff.mp hxm with ⟨csx, hcsx, hxin⟩
  have hxmem : (k, csx) ∈ m := mem_of_omLookup hcsx
  have hxoff : x.off = k := hoe _ hxmem x hxin
  -- x sits in the bucket at k of the walk map
  have hxmt : x ∈ omBucket (gocM m o size) k := by
    by_cases hko : k = o
    · subst hko
      exact mem_gocM_bucket_o hs hxm
    · rcases mem_omBucket_iff.mp hxm with ⟨cs0, hcs0, hx0⟩
      exact mem_omBucket_iff.mpr
        ⟨cs0, omLookup_of_mem hmts (mem_gocM_of_ne hs (mem_of_omLookup hcs0) hko), hx0⟩
  rcases mem_omBucket_iff.mp hxmt with ⟨csk, hcsk, hxk⟩
  have hmtmem : (k, csk) ∈ gocM m o size := mem_of_omLookup hcsk
  -- the query cell disagrees with x exactly as the placeholder does
  have hxq : x.sameCS (gocQ m o size) = false := by
    have : x.sameCS (gocQ m o size) = x.sameCS ⟨o, size, none⟩ := by
      simp [Cell.sameCS, hqos.1, hqos.2]
    rw [this]
    exact hq0
  -- buckets of the walk map strictly between k and o, and the bucket at
  -- o itself, all contain an overlapping cell
  have hpref : ∀ kk (cs' : List Cell), (kk, cs') ∈ gocM m o size →
      ((k < kk ∧ kk < o) ∨ (o < kk ∧ kk < k) ∨ kk = o) →
      ∃ z ∈ cs', z.overlap o size = true := by
    intro kk cs' hmem hcase
    by_cases hkko : kk = o
    · have hcs' : omBucket (gocM m o size) o = cs' := by
        unfold omBucket
        rw [omLookup_of_mem hmts (hkko ▸ hmem)]
      refine ⟨gocQ m o size, ?_, ?_⟩
      · rw [← hcs']
        exact gocQ_mem_gocM hs o size
      · exact Cell.overlap_self o size hqos.1 hqos.2 hsz
    · have hmm : (kk, cs') ∈ m := mem_gocM_ne hs hmem hkko
      have hbkk : omBucket m kk = cs' := by
        unfold omBucket
        rw [omLookup_of_mem hs hmm]
      have hvan : omBucket (omRemoveCells m (get_overlap_cells m o size)) kk = [] := by
        apply hbet
        rcases hcase with h | h | h
        · exact Or.inl h
        · exact Or.inr h
        · exact absurd h hkko
      have hnem : omBucket m kk ≠ [] := by
        rw [hbkk]
        exact hne _ hmm
      rcases bucket_vanish hs hnem hvan with ⟨y, hym, s, hsS, _, hysame⟩
      refine ⟨y, by rw [← hbkk]; exact hym, ?_⟩
      rw [Cell.overlap_congr hysame]
      exact overlap_of_mem_goc hsS
  -- run the original walk and find a collected twin of x
  have hfound : ∃ y ∈ get_overlap_cells m o size, y.sameCS x = true := by
    rcases le_or_lt k o with hko | hko
    · -- x is reached by the backward walk
      have hdec := sorted_filter_decomp_le hmts hmtmem hko
      have hlist :
          ((((gocM m o size).filter (fun b => b.1 ≤ o)).map Prod.snd).reverse)
          = (((gocM m o size).filter (fun b => k < b.1 ∧ b.1 ≤ o)).map Prod.snd).reverse
            ++ csk :: (((gocM m o size).filter (fun b => b.1 < k)).map Prod.snd).reverse := by
        rw [hdec, List.map_append, List.map_cons, reverse_decomp]
      have hcompl := walkB_mem_of o size (gocQ m o size) true
        ((((gocM m o size).filter (fun b => k < b.1 ∧ b.1 ≤ o)).map Prod.snd).reverse)
        csk
        ((((gocM m o size).filter (fun b => b.1 < k)).map Prod.snd).reverse)
        [] x
        (by
          intro b' hb'
          rw [List.mem_reverse] at hb'
          rcases List.mem_map.mp hb' with ⟨⟨kk, cs'⟩, hmemf, hsnd⟩
          have hcond := List.of_mem_filter hmemf
          simp only [decide_eq_true_eq] at hcond
          have hmem' : (kk, cs') ∈ gocM m o size := List.mem_of_mem_filter hmemf
          rcases hpref kk cs' hmem'
            (by rcases hcond with ⟨h1, h2⟩
                rcases lt_or_eq_of_le h2 with h | h
                · exact Or.inl ⟨h1, h⟩
                · exact Or.inr (Or.inr h)) with ⟨z, hz, hzov⟩
          exact ⟨z, by rw [← hsnd]; exact hz, hzov⟩)
        hxk hov (fun _ => hxq)
      rw [← hlist] at hcompl
      rcases hcompl with ⟨y, hy, hysame⟩
      refine ⟨y, ?_, hysame⟩
      unfold get_overlap_cells
      exact walkB_sub _ _ _ _ _ _ y hy
    · -- x is reached by the forward walk
      have hdec := sorted_filter_decomp_gt hmts hmtmem hko
      have hlist :
          (((gocM m o size).filter (fun b => o < b.1)).map Prod.snd)
          = (((gocM m o size).filter (fun b => o < b.1 ∧ b.1 < k)).map Prod.snd)
            ++ csk :: (((gocM m o size).filter (fun b => k < b.1)).map Prod.snd) := by
        rw [hdec, List.map_append, List.map_cons]
      have hcompl := walkB_mem_of o size (gocQ m o size) false
        ((((gocM m o size).filter (fun b => o < b.1 ∧ b.1 < k)).map Prod.snd))
        csk
        ((((gocM m o size).filter (fun b => k < b.1)).map Prod.snd))
        (walkB o size (gocQ m o size) true
          ((((gocM m o size).filter (fun b => b.1 ≤ o)).map Prod.snd).reverse) []) x
        (by
          intro b' hb'
          rcases List.mem_map.mp hb' with ⟨⟨kk, cs'⟩, hmemf, hsnd⟩
          have hcond := List.of_mem_filter hmemf
          simp only [decide_eq_true_eq] at hcond
          have hmem' : (kk, cs') ∈ gocM m o size := List.mem_of_mem_filter hmemf
          rcases hpref kk cs' hmem' (Or.inr (Or.inl hcond)) with ⟨z, hz, hzov⟩
          exact ⟨z, by rw [← hsnd]; exact hz, hzov⟩)
        hxk hov (by intro h; exact absurd h (by simp))
      rw [← hlist] at hcompl
      exact hcompl
  rcases hfound with ⟨y, hyS, hysame⟩
  have hyoff : y.off = k := by
    rw [(Cell.sameCS_iff.mp hysame).1, hxoff]
  have hfalse := hsur y hyS hyoff
  have htrue := Cell.sameCS_symm hysame
  rw [hfalse] at htrue
  exact absurd htrue (by simp)

/-- Cells of the bucket at o after mk_cell come from the old bucket or
are the created cell. -/
theorem mem_omBucket_mkCell_self {a : AVar} {m : OffsetMap} {o : Int} {size : Nat}
    (hs : omSorted m) {x : Cell}
    (hx : x ∈ omBucket (mkCell a m o size).1 o) :
    x ∈ omBucket m o ∨ x = (mkCell a m o size).2 := by
  unfold mkCell at hx ⊢
  cases hg : getCell m o size with
  | some c =>
    rw [hg] at hx
    exact Or.inl hx
  | none =>
    rw [hg] at hx
    dsimp only at hx ⊢
    exact mem_omBucket_insertCell_self (c := ⟨o, size, some (AVar.cellV a.idx o size a.type.elemType)⟩) hs hx

/-- The main property behind C1: after a store at (o, size) has killed
the overlap set and materialized the exact cell, the overlap query of the
subsequent load at (o, size) is empty. -/
theorem goc_after_kill (a : AVar) {m : OffsetMap} (o : Int) (size : Nat)
    (hs : omSorted m) (hne : omNonempty m) (hoe : omOffEq m) :
    get_overlap_cells
      ((mkCell a (omRemoveCells m (get_overlap_cells m o size)) o size).1) o size
      = [] := by
  have hs1 : omSorted (omRemoveCells m (get_overlap_cells m o size)) :=
    omSorted_removeCells hs _
  have hs2 : omSorted ((mkCell a (omRemoveCells m (get_overlap_cells m o size)) o size).1) :=
    mkCell_sorted hs1
  set om1 := omRemoveCells m (get_overlap_cells m o size) with hom1
  set om2 := (mkCell a om1 o size).1 with hom2
  set ex := (mkCell a om1 o size).2 with hex
  have hg2 : getCell om2 o size = some ex := mkCell_getCell hs1
  have hexos : ex.off = o ∧ ex.size = size := mkCell_off_size
  have hq2 : gocQ om2 o size = ex := by
    unfold gocQ
    rw [hg2]
  have hm2 : gocM om2 o size = om2 := by
    unfold gocM
    rw [hg2]
    rfl
  rcases Nat.eq_zero_or_pos size with hsz0 | hsz
  · -- size zero: nothing overlaps, both walks stop at once
    subst hsz0
    unfold get_overlap_cells
    rw [walkB_no_overlap _ _ _ _ _ (fun b _ x _ => Cell.overlap_size_zero x o)]
    exact walkB_no_overlap _ _ _ _ _ (fun b _ x _ => Cell.overlap_size_zero x o)
  · -- positive size
    have hsz' : 1 ≤ size := hsz
    -- every overlapping cell of the bucket at o is the exact cell
    have hA : ∀ x ∈ omBucket om2 o, x.overlap o size = true → x.sameCS ex = true := by
      intro x hx hov
      rcases mem_omBucket_mkCell_self hs1 hx with hx1 | hxe
      · by_cases hq0 : x.sameCS ⟨o, size, none⟩ = true
        · rcases Cell.sameCS_iff.mp hq0 with ⟨h1, h2⟩
          exact Cell.sameCS_iff.mpr ⟨by rw [h1, hexos.1], by rw [h2, hexos.2]⟩
        · exfalso
          have hq0' : x.sameCS ⟨o, size, none⟩ = false := by
            cases h : x.sameCS ⟨o, size, none⟩
            · rfl
            · exact absurd h hq0
          exact killed_matched hs hne hoe hsz' hx1 hov hq0'
            (fun kk hcase => absurd hcase (by omega))
      · rw [hxe]
        exact Cell.sameCS_refl ex
    have hexmem : ex ∈ omBucket om2 o := (getCell_mem hg2).1
    have hexov : ex.overlap o size = true := Cell.overlap_self o size hexos.1 hexos.2 hsz'
    rcases mem_omBucket_iff.mp hexmem with ⟨b2o, hb2o, hexin⟩
    have hmem2o : (o, b2o) ∈ om2 := mem_of_omLookup hb2o
    have hb2oeq : omBucket om2 o = b2o := by
      unfold omBucket
      rw [hb2o]
    -- decompose the backward list: the bucket at o first
    have hdec2 := sorted_filter_decomp_le hs2 hmem2o (le_refl o)
    have hmid : om2.filter (fun b => o < b.1 ∧ b.1 ≤ o) = [] := by
      apply List.filter_eq_nil_iff.mpr
      intro b _
      simp only [decide_eq_true_eq]
      omega
    rw [hmid] at hdec2
    have hupto :
        ((om2.filter (fun b => b.1 ≤ o)).map Prod.snd).reverse
        = b2o :: ((om2.filter (fun b => b.1 < o)).map Prod.snd).reverse := by
      rw [hdec2, List.map_append, List.map_cons]
      simp
    -- the backward walk collects nothing
    have hpushO : bucketPush o size ex true [] b2o = [] := by
      apply bucketPush_id
      intro x hx hov
      rw [hA x (by rw [hb2oeq]; exact hx) hov]
      rfl
    have hanyO : b2o.any (fun x => x.overlap o size) = true :=
      List.any_eq_true.mpr ⟨ex, hexin, by simpa using hexov⟩
    have hout1 :
        walkB o size ex true (((om2.filter (fun b => b.1 ≤ o)).map Prod.snd).reverse) [] = [] := by
      rw [hupto]
      simp only [walkB, hpushO, hanyO, if_true]
      rcases List.eq_nil_or_concat (om2.filter (fun b => b.1 < o)) with hflt | ⟨l, b', hflt⟩
      · rw [hflt]
        simp [walkB]
      · rw [List.concat_eq_append] at hflt
        have hb'f : b' ∈ om2.filter (fun b => b.1 < o) := by
          rw [hflt]
          exact List.mem_append_right _ (List.mem_singleton.mpr rfl)
        have hb'mem : b' ∈ om2 := List.mem_of_mem_filter hb'f
        have hb'lt : b'.1 < o := by
          have := List.of_mem_filter hb'f
          simpa using this
        have hb'max : ∀ bb ∈ om2, bb.1 < o → bb.1 ≤ b'.1 := by
          intro bb hbb hbbo
          have hbbf : bb ∈ om2.filter (fun b => b.1 < o) :=
            List.mem_filter.mpr ⟨hbb, by simpa using hbbo⟩
          rw [hflt] at hbbf
          rcases List.mem_append.mp hbbf with hl | hr
          · have hpw : (om2.filter (fun b => b.1 < o)).Pairwise (fun b b' => b.1 < b'.1) :=
              hs2.sublist (List.filter_sublist om2)
            rw [hflt] at hpw
            rcases List.pairwise_append.mp hpw with ⟨_, _, hcross⟩
            exact le_of_lt (hcross bb hl b' (List.mem_singleton.mpr rfl))
          · rw [List.mem_singleton.mp hr]
        have hnoov : ∀ x ∈ b'.2, x.overlap o size = false := by
          intro x hx
          cases hov : x.overlap o size
          · rfl
          · exfalso
            have hxo2 : x ∈ omBucket om2 b'.1 := by
              unfold omBucket
              rw [omLookup_of_mem hs2 hb'mem]
              exact hx
            have hxo1 : x ∈ omBucket om1 b'.1 := by
              rw [← mkCell_bucket_other (a := a) (o := o) (z := size) hs1
                (by omega : b'.1 ≠ o)]
              exact hxo2
            rcases mem_omBucket_removeCells hs hxo1 with ⟨hxm, _⟩
            rcases mem_omBucket_iff.mp hxm with ⟨csxx, hcsxx, hxinx⟩
            have hxoff : x.off = b'.1 := hoe _ (mem_of_omLookup hcsxx) x hxinx
            have hq0 : x.sameCS ⟨o, size, none⟩ = false := by
              apply Cell.sameCS_eq_false_of_off_ne
              rw [hxoff]
              exact (by omega : b'.1 ≠ o)
            apply killed_matched hs hne hoe hsz' hxo1 hov hq0
            intro kk hcase
            rcases hcase with ⟨h1, h2⟩ | ⟨h1, h2⟩
            · -- a bucket strictly between b'.1 and o cannot survive in om2
              cases hbk : omBucket om1 kk with
              | nil => rfl
              | cons y ys =>
                exfalso
                have hbk2 : omBucket om2 kk = y :: ys := by
                  rw [hom2, mkCell_bucket_other hs1 (by omega : kk ≠ o)]
                  exact hbk
                have : ∃ csk, omLookup om2 kk = some csk := by
                  unfold omBucket at hbk2
                  cases hl : omLookup om2 kk
                  · rw [hl] at hbk2; simp at hbk2
                  · exact ⟨_, rfl⟩
                rcases this with ⟨csk, hcsk⟩
                have := hb'max (kk, csk) (mem_of_omLookup hcsk) h2
                omega
            · omega
        have hlist2 :
            ((om2.filter (fun b => b.1 < o)).map Prod.snd).reverse
            = b'.2 :: ((l.map Prod.snd).reverse) := by
          rw [hflt, List.map_append]
          simp
        rw [hlist2]
        simp only [walkB]
        have hpush' : bucketPush o size ex true [] b'.2 = [] := by
          apply bucketPush_id
          intro x hx hov
          rw [hnoov x hx] at hov
          exact absurd hov (by simp)
        have hany' : b'.2.any (fun x => x.overlap o size) = false := by
          cases h : b'.2.any (fun x => x.overlap o size)
          · rfl
          · rcases List.any_eq_true.mp h with ⟨x, hx, hxov⟩
            rw [hnoov x hx] at hxov
            simp at hxov
        rw [hpush', hany']
        simp
    -- the forward walk collects nothing either
    unfold get_overlap_cells
    rw [hq2, hm2, hout1]
    cases hflt2 : om2.filter (fun b => o < b.1) with
    | nil => simp [walkB]
    | cons b'' l'' =>
      have hb''f : b'' ∈ om2.filter (fun b => o < b.1) := by
        rw [hflt2]
        exact List.mem_cons_self _ _
      have hb''mem : b'' ∈ om2 := List.mem_of_mem_filter hb''f
      have hb''gt : o < b''.1 := by
        have := List.of_mem_filter hb''f
        simpa using this
      have hb''min : ∀ bb ∈ om2, o < bb.1 → b''.1 ≤ bb.1 := by
        intro bb hbb hbbo
        have hbbf : bb ∈ om2.filter (fun b => o < b.1) :=
          List.mem_filter.mpr ⟨hbb, by simpa using hbbo⟩
        rw [hflt2] at hbbf
        rcases List.mem_cons.mp hbbf with he | hl
        · rw [he]
        · have hpw : (om2.filter (fun b => o < b.1)).Pairwise (fun b b' => b.1 < b'.1) :=
            hs2.sublist (List.filter_sublist om2)
          rw [hflt2] at hpw
          exact le_of_lt ((List.pairwise_cons.mp hpw).1 bb hl)
      have hnoov2 : ∀ x ∈ b''.2, x.overlap o size = false := by
        intro x hx
        cases hov : x.overlap o size
        · rfl
        · exfalso
          have hxo2 : x ∈ omBucket om2 b''.1 := by
            unfold omBucket
            rw [omLookup_of_mem hs2 hb''mem]
            exact hx
          have hxo1 : x ∈ omBucket om1 b''.1 := by
            rw [← mkCell_bucket_other (a := a) (o := o) (z := size) hs1
              (by omega : b''.1 ≠ o)]
            exact hxo2
          rcases mem_omBucket_removeCells hs hxo1 with ⟨hxm, _⟩
          rcases mem_omBucket_iff.mp hxm with ⟨csxx, hcsxx, hxinx⟩
          have hxoff : x.off = b''.1 := hoe _ (mem_of_omLookup hcsxx) x hxinx
          have hq0 : x.sameCS ⟨o, size, none⟩ = false := by
            apply Cell.sameCS_eq_false_of_off_ne
            rw [hxoff]
            exact (by omega : b''.1 ≠ o)
          apply killed_matched hs hne hoe hsz' hxo1 hov hq0
          intro kk hcase
          rcases hcase with ⟨h1, h2⟩ | ⟨h1, h2⟩
          · omega
          · cases hbk : omBucket om1 kk with
            | nil => rfl
            | cons y ys =>
              exfalso
              have hbk2 : omBucket om2 kk = y :: ys := by
                rw [hom2, mkCell_bucket_other hs1 (by omega : kk ≠ o)]
                exact hbk
              have : ∃ csk, omLookup om2 kk = some csk := by
                unfold omBucket at hbk2
                cases hl : omLookup om2 kk
                · rw [hl] at hbk2; simp at hbk2
                · exact ⟨_, rfl⟩
              rcases this with ⟨csk, hcsk⟩
              have := hb''min (kk, csk) (mem_of_omLookup hcsk) h1
              omega
      rw [List.map_cons]
      simp only [walkB]
      have hpush'' : bucketPush o size ex false [] b''.2 = [] := by
        apply bucketPush_id
        intro x hx hov
        rw [hnoov2 x hx] at hov
        exact absurd hov (by simp)
      have hany'' : b''.2.any (fun x => x.overlap o size) = false := by
        cases h : b''.2.any (fun x => x.overlap o size)
        · rfl
        · rcases List.any_eq_true.mp h with ⟨x, hx, hxov⟩
          rw [hnoov2 x hx] at hxov
          simp at hxov
      rw [hpush'', hany'']
      simp

/-- Lookup of a freshly set binding. -/
theorem envFind_envSet_self (l : List (AVar × Int)) (v : AVar) (c : Int) :
    envFind (envSet l v c) v = some c := by
  unfold envFind envSet
  simp [List.find?]

/-- Erasing one variable leaves the others unchanged. -/
theorem envFind_envErase_other {l : List (AVar × Int)} {v w : AVar} (h : w ≠ v) :
    envFind (envErase l v) w = envFind l w := by
  unfold envFind envErase
  induction l with
  | nil => simp
  | cons p rest ih =>
    simp only [List.filter]
    by_cases hp : p.1 = v
    · rw [show (decide (p.1 ≠ v)) = false by simp [hp]]
      simp only [List.find?]
      rw [show (decide (p.1 = w)) = false by simp [hp]; exact fun he => h (he ▸ hp ▸ rfl)]
      exact ih
    · rw [show (decide (p.1 ≠ v)) = true by simp [hp]]
      simp only [List.find?]
      cases hd : decide (p.1 = w)
      · exact ih
      · rfl

/-- Setting one variable leaves the others unchanged. -/
theorem envFind_envSet_other {l : List (AVar × Int)} {v w : AVar} (h : w ≠ v)
    (c : Int) : envFind (envSet l v c) w = envFind l w := by
  unfold envSet
  rw [show envFind ((v, c) :: envErase l v) w = envFind (envErase l v) w by
    unfold envFind
    simp only [List.find?]
    rw [show (decide (v = w)) = false by simp; exact fun he => h he.symm]]
  exact envFind_envErase_other h

/-- Interval projection only depends on the bottom flag and the binding. -/
theorem getItv_congr {d1 d2 : ConstDom} (hb : d1.bot = d2.bot)
    {v : AVar} (hv : envFind d1.env v = envFind d2.env v) :
    d1.getItv v = d2.getItv v := by
  unfold ConstDom.getItv ConstDom.find
  rw [hb, hv]

/-- Interval evaluation is unchanged between states agreeing on the
non-cell variables, for expressions over non-cell variables. -/
theorem toItv_congr {b d : ConstDom} (hb : b.bot = d.bot)
    (hagree : ∀ v, v.isCell = false → envFind b.env v = envFind d.env v)
    {e : LinExpr} (he : ∀ v ∈ e.vars, v.isCell = false) :
    b.toItv e = d.toItv e := by
  unfold ConstDom.toItv
  have : ∀ (ts : List (Int × AVar)) (acc : Itv),
      (∀ v ∈ ts.map Prod.snd, v.isCell = false) →
      ts.foldl (fun r p => r.add ((Itv.single p.1).mul (b.getItv p.2))) acc
      = ts.foldl (fun r p => r.add ((Itv.single p.1).mul (d.getItv p.2))) acc := by
    intro ts
    induction ts with
    | nil => intro acc _; rfl
    | cons p rest ih =>
      intro acc hts
      simp only [List.foldl_cons]
      rw [getItv_congr hb (hagree p.2 (hts p.2 (by simp)))]
      exact ih _ (fun v hv => hts v (by simp [hv]))
  exact this e.terms _ he

/-- The order on extended bounds is reflexive. -/
theorem EB.leb_refl (x : EB) : EB.leb x x = true := by
  cases x <;> simp [EB.leb]

/-- One is a left unit of the bound multiplication on finite bounds. -/
theorem EB.mul_one_fin (c : Int) : EB.mul (.fin 1) (.fin c) = .fin c := by
  unfold EB.mul
  split <;> simp_all

/-- One is a left unit of interval multiplication on singletons. -/
theorem Itv.mul_single_one (c : Int) : (Itv.single 1).mul (Itv.single c) = Itv.single c := by
  unfold Itv.single Itv.mul
  simp only [EB.mul_one_fin, EB.minb, EB.maxb, EB.leb_refl, if_true, ite_self]
  unfold Itv.make
  rw [if_pos (EB.leb_refl _)]

/-- Evaluating the single-variable expression of a bound variable. -/
theorem evalC_var {d : ConstDom} {v : AVar} {c : Int}
    (hb : d.bot = false) (hf : d.find v = some c) :
    d.evalC (LinExpr.var v) = some c := by
  unfold ConstDom.evalC ConstDom.toItv LinExpr.var
  simp only [List.foldl_cons, List.foldl_nil]
  unfold ConstDom.getItv
  rw [hb, hf]
  simp only [Bool.false_eq_true, if_false, Itv.mul_single_one]
  show Itv.singleton ((Itv.single 0).add (Itv.single c)) = some c
  have h1 : (Itv.single 0).add (Itv.single c) = Itv.single (0 + c) := by
    unfold Itv.single Itv.add
    dsimp only [EB.add]
    unfold Itv.make
    rw [if_pos (EB.leb_refl _)]
  rw [h1]
  simp [Itv.singleton, Itv.single]

/-- Forgetting the scalars of the killed cells preserves the bottom flag
and the bindings of all non-cell variables. -/
theorem forget_fold_cells (d : ConstDom) (cells : List Cell)
    (hcells : ∀ c ∈ cells, ∃ sc, c.scalar = some sc ∧ sc.isCell = true) :
    (cells.foldl (fun d c => match c.scalar with
                             | some sc => d.forget sc
                             | none => d) d).bot = d.bot
    ∧ ∀ v, v.isCell = false →
        envFind (cells.foldl (fun d c => match c.scalar with
                                         | some sc => d.forget sc
                                         | none => d) d).env v
        = envFind d.env v := by
  induction cells generalizing d with
  | nil => exact ⟨rfl, fun _ _ => rfl⟩
  | cons c rest ih =>
    rcases hcells c (List.mem_cons_self _ _) with ⟨sc, hscal, hcell⟩
    have hstep : (match c.scalar with
                  | some sc => d.forget sc
                  | none => d) = d.forget sc := by rw [hscal]
    simp only [List.foldl_cons, hstep]
    rcases ih (d.forget sc) (fun c' hc' => hcells c' (List.mem_cons_of_mem _ hc')) with ⟨hb, hf⟩
    constructor
    · rw [hb]
      unfold ConstDom.forget
      by_cases hdb : d.bot = true
      · rw [if_pos hdb]
      · rw [if_neg hdb]
        simp only [Bool.not_eq_true] at hdb
        exact hdb.symm
    · intro v hv
      rw [hf v hv]
      unfold ConstDom.forget
      split
      · rfl
      · dsimp only
        apply envFind_envErase_other
        intro he
        rw [he, hcell] at hv
        exact absurd hv (by simp)

/-- amapSet followed by amapGet on the same array. -/
theorem amapGet_amapSet_self (am : List (AVar × OffsetMap)) (a : AVar)
    (m : OffsetMap) : amapGet (amapSet am a m) a = m := by
  unfold amapGet amapSet
  simp [List.find?]

/-- Every collected overlap cell of a well-formed map carries a memoized
cell scalar. -/
theorem goc_scalars {m : OffsetMap} (hs : omSorted m) (hsc : omScalars m)
    {o : Int} {size : Nat} :
    ∀ s ∈ get_overlap_cells m o size, ∃ sc, s.scalar = some sc ∧ sc.isCell = true := by
  intro s hsmem
  have hqos := gocQ_off_size m o size
  -- membership in one of the visited buckets, with the backward walk
  -- excluding the query cell
  have hcases :
      (∃ b ∈ (((gocM m o size).filter (fun b => o < b.1)).map Prod.snd), s ∈ b)
      ∨ ((∃ b ∈ ((((gocM m o size).filter (fun b => b.1 ≤ o)).map Prod.snd).reverse), s ∈ b)
          ∧ s.sameCS (gocQ m o size) = false) := by
    unfold get_overlap_cells at hsmem
    rcases walkB_sound _ _ _ _ _ _ _ hsmem with h1 | ⟨b, hb, hsb, _, _⟩
    · rcases walkB_sound _ _ _ _ _ _ _ h1 with h2 | ⟨b, hb, hsb, _, hck⟩
      · simp at h2
      · exact Or.inr ⟨⟨b, hb, hsb⟩, hck rfl⟩
    · exact Or.inl ⟨b, hb, hsb⟩
  have hbucket : ∀ (kk : Int) (cs' : List Cell), (kk, cs') ∈ gocM m o size → s ∈ cs' →
      s.sameCS (gocQ m o size) = false ∨ kk ≠ o →
      ∃ sc, s.scalar = some sc ∧ sc.isCell = true := by
    intro kk cs' hmem hsin hside
    by_cases hkko : kk = o
    · -- bucket at o: s is a stored cell of m or the placeholder
      have hsb : s ∈ omBucket (gocM m o size) o := by
        refine mem_omBucket_iff.mpr ⟨cs', ?_, hsin⟩
        exact omLookup_of_mem (gocM_sorted hs o size) (hkko ▸ hmem)
      have hsm : s ∈ omBucket m o ∨ s = (⟨o, size, none⟩ : Cell) := by
        unfold gocM at hsb
        by_cases hg : (getCell m o size).isSome = true
        · rw [if_pos hg] at hsb
          exact Or.inl hsb
        · rw [if_neg hg] at hsb
          exact mem_omBucket_insertCell_self (c := ⟨o, size, none⟩) hs hsb
      rcases hsm with hsm | htmp
      · rcases mem_omBucket_iff.mp hsm with ⟨cs0, hcs0, hsin0⟩
        exact hsc _ (mem_of_omLookup hcs0) s hsin0
      · exfalso
        rcases hside with hside | hside
        · rw [htmp] at hside
          have : Cell.sameCS ⟨o, size, none⟩ (gocQ m o size) = true :=
            Cell.sameCS_iff.mpr ⟨hqos.1.symm, hqos.2.symm⟩
          rw [hside] at this
          exact absurd this (by simp)
        · exact hside hkko
    · have hmm : (kk, cs') ∈ m := mem_gocM_ne hs hmem hkko
      exact hsc _ hmm s hsin
  rcases hcases with ⟨b, hb, hsb⟩ | ⟨⟨b, hb, hsb⟩, hnq⟩
  · rcases List.mem_map.mp hb with ⟨⟨kk, cs'⟩, hmemf, hsnd⟩
    have hgt : o < kk := by
      have := List.of_mem_filter hmemf
      simpa using this
    exact hbucket kk cs' (List.mem_of_mem_filter hmemf)
      (by rw [← hsnd] at hsb; exact hsb) (Or.inr (by omega))
  · rw [List.mem_reverse] at hb
    rcases List.mem_map.mp hb with ⟨⟨kk, cs'⟩, hmemf, hsnd⟩
    exact hbucket kk cs' (List.mem_of_mem_filter hmemf)
      (by rw [← hsnd] at hsb; exact hsb) (Or.inl hnq)

/-- Cell removal keeps the scalar property. -/
theorem omScalars_removeCells {m : OffsetMap} (hs : omSorted m) (hsc : omScalars m)
    (S : List Cell) : omScalars (omRemoveCells m S) := by
  intro b hb c hc
  have hcb : c ∈ omBucket (omRemoveCells m S) b.1 := by
    refine mem_omBucket_iff.mpr ⟨b.2, ?_, hc⟩
    exact omLookup_of_mem (omSorted_removeCells hs S) hb
  rcases mem_omBucket_removeCells hs hcb with ⟨hcm, _⟩
  rcases mem_omBucket_iff.mp hcm with ⟨cs0, hcs0, hcin0⟩
  exact hsc _ (mem_of_omLookup hcs0) c hcin0

/-- Characterization of array_store on the constant-index path. -/
theorem exp_array_store_eq (S : ExpState) (a : AVar) (es i val : LinExpr) (b : Bool)
    {n nb : Int}
    (hbot : S.inv.bot = false)
    (hi : (S.inv.toItv i).singleton = some n)
    (hes : (S.inv.toItv es).singleton = some nb) :
    exp_array_store S a es i val b =
      { amap := amapSet S.amap a
          (mkCell a (omRemoveCells (amapGet S.amap a)
            (get_overlap_cells (amapGet S.amap a) n nb.toNat)) n nb.toNat).1,
        inv :=
          match (mkCell a (omRemoveCells (amapGet S.amap a)
            (get_overlap_cells (amapGet S.amap a) n nb.toNat)) n nb.toNat).2.scalar with
          | some sc => ((get_overlap_cells (amapGet S.amap a) n nb.toNat).foldl
              (fun d c => match c.scalar with
                          | some sc => d.forget sc
                          | none => d) S.inv).assign sc val
          | none => (get_overlap_cells (amapGet S.amap a) n nb.toNat).foldl
              (fun d c => match c.scalar with
                          | some sc => d.forget sc
                          | none => d) S.inv } := by
  unfold exp_array_store
  rw [show S.inv.is_bottom = false from hbot]
  simp only [Bool.false_eq_true, if_false]
  rw [hi, hes]

/-- Characterization of array_load on the exact-cell path. -/
theorem exp_array_load_hit (S : ExpState) (lhs a : AVar) (es i : LinExpr)
    {n nb : Int}
    (hbot : S.inv.bot = false)
    (htop : S.inv.is_top = false)
    (hi : (S.inv.toItv i).singleton = some n)
    (hes : (S.inv.toItv es).singleton = some nb)
    (hgoc : get_overlap_cells (amapGet S.amap a) n nb.toNat = []) :
    exp_array_load S lhs a es i =
      { amap := amapSet S.amap a (mkCell a (amapGet S.amap a) n nb.toNat).1,
        inv :=
          match (mkCell a (amapGet S.amap a) n nb.toNat).2.scalar with
          | some sc => S.inv.assign lhs (LinExpr.var sc)
          | none => S.inv } := by
  unfold exp_array_load
  rw [show S.inv.is_bottom = false from hbot, htop]
  simp only [Bool.false_eq_true, Bool.or_self, if_false]
  rw [hi, hes]
  dsimp only
  rw [hgoc]
  simp

/-- Characterization of array_load on a non-constant index. -/
theorem exp_array_load_badidx (S : ExpState) (lhs a : AVar) (es i : LinExpr)
    (hbot : S.inv.bot = false)
    (htop : S.inv.is_top = false)
    (hi : (S.inv.toItv i).singleton = none) :
    exp_array_load S lhs a es i = { S with inv := S.inv.forget lhs } := by
  unfold exp_array_load
  rw [show S.inv.is_bottom = false from hbot, htop]
  simp only [Bool.false_eq_true, Bool.or_self, if_false]
  rw [hi]

/-- Characterization of array_load on a non-constant element size: the
method returns with the state unchanged (the destination is NOT
forgotten on this path). -/
theorem exp_array_load_bades (S : ExpState) (lhs a : AVar) (es i : LinExpr)
    {n : Int}
    (hbot : S.inv.bot = false)
    (htop : S.inv.is_top = false)
    (hi : (S.inv.toItv i).singleton = some n)
    (hes : (S.inv.toItv es).singleton = none) :
    exp_array_load S lhs a es i = S := by
  unfold exp_array_load
  rw [show S.inv.is_bottom = false from hbot, htop]
  simp only [Bool.false_eq_true, Bool.or_self, if_false]
  rw [hi, hes]

/-- Characterization of array_load on an overlapping read. -/
theorem exp_array_load_overlap (S : ExpState) (lhs a : AVar) (es i : LinExpr)
    {n nb : Int}
    (hbot : S.inv.bot = false)
    (htop : S.inv.is_top = false)
    (hi : (S.inv.toItv i).singleton = some n)
    (hes : (S.inv.toItv es).singleton = some nb)
    (hgoc : get_overlap_cells (amapGet S.amap a) n nb.toNat ≠ []) :
    exp_array_load S lhs a es i = { S with inv := S.inv.forget lhs } := by
  unfold exp_array_load
  rw [show S.inv.is_bottom = false from hbot, htop]
  simp only [Bool.false_eq_true, Bool.or_self, if_false]
  rw [hi, hes]
  dsimp only
  rw [show (get_overlap_cells (amapGet S.amap a) n nb.toNat).isEmpty = false by
    cases h : (get_overlap_cells (amapGet S.amap a) n nb.toNat).isEmpty
    · rfl
    · exact absurd (List.isEmpty_iff.mp h) hgoc]
  simp

/-- If the cell is already present, mk_cell returns the map unchanged
together with that cell. -/
theorem mkCell_eq_of_getCell (a : AVar) {m : OffsetMap} {o : Int} {size : Nat}
    {c : Cell} (h : getCell m o size = some c) :
    mkCell a m o size = (m, c) := by
  unfold mkCell
  rw [h]

/-- C1: with a constant index and element size (and the index, size and
value expressions ranging over program variables), an array store
followed by an array load of the same cell makes lhs equal to the stored
value in the inner numerical abstraction. The hypotheses on the offset
map are the data-model invariants of spec section 3 (sorted non-negative
offsets, nonempty buckets, cells keyed by their offset, memoized cell
scalars). -/
theorem C1_store_then_load (S : ExpState) (lhs a : AVar) (es i val : LinExpr)
    (n nb cv : Int) (b : Bool)
    (hbot : S.inv.bot = false)
    (hi : (S.inv.toItv i).singleton = some n)
    (hes : (S.inv.toItv es).singleton = some nb)
    (hval : S.inv.evalC val = some cv)
    (hiv : ∀ v ∈ i.vars, v.isCell = false)
    (hesv : ∀ v ∈ es.vars, v.isCell = false)
    (hvv : ∀ v ∈ val.vars, v.isCell = false)
    (hs : omSorted (amapGet S.amap a)) (hne : omNonempty (amapGet S.amap a))
    (hoe : omOffEq (amapGet S.amap a)) (hsc : omScalars (amapGet S.amap a)) :
    (exp_array_load (exp_array_store S a es i val b) lhs a es i).inv.find lhs
      = some cv := by
  rw [exp_array_store_eq S a es i val b hbot hi hes]
  have hs1 : omSorted (omRemoveCells (amapGet S.amap a)
      (get_overlap_cells (amapGet S.amap a) n nb.toNat)) := omSorted_removeCells hs _
  have hsc1 : omScalars (omRemoveCells (amapGet S.amap a)
      (get_overlap_cells (amapGet S.amap a) n nb.toNat)) := omScalars_removeCells hs hsc _
  rcases mkCell_scalar (a := a) (o := n) (z := nb.toNat) hsc1 with ⟨sc, hscal, hsccell⟩
  rw [hscal]
  rcases forget_fold_cells S.inv (get_overlap_cells (amapGet S.amap a) n nb.toNat)
    (goc_scalars hs hsc) with ⟨hb1, hagree1⟩
  dsimp only
  -- the inner state after the kills, and after the strong update
  set inv1 := (get_overlap_cells (amapGet S.amap a) n nb.toNat).foldl
    (fun d c => match c.scalar with
                | some sc => d.forget sc
                | none => d) S.inv with hinv1
  have hb1' : inv1.bot = false := by rw [hb1, hbot]
  have hval1 : inv1.evalC val = some cv := by
    unfold ConstDom.evalC
    rw [toItv_congr (by rw [hb1']; exact hbot.symm) hagree1 hvv]
    exact hval
  have hassign : inv1.assign sc val = ⟨false, envSet inv1.env sc cv⟩ := by
    unfold ConstDom.assign
    rw [hb1']
    simp only [Bool.false_eq_true, if_false, hval1]
  rw [hassign]
  -- facts about the post-store state
  have hagree2 : ∀ v, v.isCell = false →
      envFind (envSet inv1.env sc cv) v = envFind S.inv.env v := by
    intro v hv
    rw [envFind_envSet_other (by intro he; rw [he, hsccell] at hv; exact absurd hv (by simp)) cv]
    exact hagree1 v hv
  have hi2 : ((⟨false, envSet inv1.env sc cv⟩ : ConstDom).toItv i).singleton = some n := by
    rw [toItv_congr (d := S.inv) (by exact hbot.symm) hagree2 hiv]
    exact hi
  have hes2 : ((⟨false, envSet inv1.env sc cv⟩ : ConstDom).toItv es).singleton = some nb := by
    rw [toItv_congr (d := S.inv) (by exact hbot.symm) hagree2 hesv]
    exact hes
  have htop2 : (⟨false, envSet inv1.env sc cv⟩ : ConstDom).is_top = false := by
    unfold ConstDom.is_top envSet
    rfl
  have hg2 : getCell (mkCell a (omRemoveCells (amapGet S.amap a)
      (get_overlap_cells (amapGet S.amap a) n nb.toNat)) n nb.toNat).1 n nb.toNat
      = some (mkCell a (omRemoveCells (amapGet S.amap a)
      (get_overlap_cells (amapGet S.amap a) n nb.toNat)) n nb.toNat).2 :=
    mkCell_getCell hs1
  have hgoc2 : get_overlap_cells (mkCell a (omRemoveCells (amapGet S.amap a)
      (get_overlap_cells (amapGet S.amap a) n nb.toNat)) n nb.toNat).1 n nb.toNat = [] :=
    goc_after_kill a n nb.toNat hs hne hoe
  rw [exp_array_load_hit _ lhs a es i rfl htop2 hi2 hes2
    (by rw [amapGet_amapSet_self]; exact hgoc2)]
  dsimp only
  rw [amapGet_amapSet_self]
  rw [mkCell_eq_of_getCell a hg2]
  rw [hscal]
  dsimp only
  have hfind2 : (⟨false, envSet inv1.env sc cv⟩ : ConstDom).find sc = some cv :=
    envFind_envSet_self inv1.env sc cv
  have hassign2 : (⟨false, envSet inv1.env sc cv⟩ : ConstDom).assign lhs (LinExpr.var sc)
      = ⟨false, envSet (envSet inv1.env sc cv) lhs cv⟩ := by
    unfold ConstDom.assign
    dsimp only
    simp only [Bool.false_eq_true, if_false]
    rw [evalC_var rfl hfind2]
  rw [hassign2]
  exact envFind_envSet_self _ lhs cv

/-- Witness for C1: from the empty expansion state, storing 7 at index 0
of an int array with element size 4 and loading it back yields 7. -/
theorem C1_store_then_load_witness :
    (exp_array_load
      (exp_array_store ⟨[], ⟨false, []⟩⟩ (AVar.pv 0 .tArrInt)
        (LinExpr.k 4) (LinExpr.k 0) (LinExpr.k 7) false)
      (AVar.pv 1 .tInt) (AVar.pv 0 .tArrInt) (LinExpr.k 4)
      (LinExpr.k 0)).inv.find (AVar.pv 1 .tInt) = some 7 :=
  C1_store_then_load ⟨[], ⟨false, []⟩⟩ (AVar.pv 1 .tInt) (AVar.pv 0 .tArrInt)
    (LinExpr.k 4) (LinExpr.k 0) (LinExpr.k 7) 0 4 7 false
    rfl rfl rfl rfl
    (by intro v hv; simp [LinExpr.k, LinExpr.vars] at hv)
    (by intro v hv; simp [LinExpr.k, LinExpr.vars] at hv)
    (by intro v hv; simp [LinExpr.k, LinExpr.vars] at hv)
    (by simp [amapGet, omSorted])
    (by intro b hb; simp [amapGet] at hb)
    (by intro b hb; simp [amapGet] at hb)
    (by intro b hb; simp [amapGet] at hb)

/-- Counterexample for C6: on a non-bottom, non-top state, a load whose
element size has a non-singleton interval (an unconstrained variable)
returns with the state unchanged, so a destination that was bound stays
bound instead of being set to top. -/
theorem C6_elem_size_not_forgotten :
    (exp_array_load ⟨[], ⟨false, [(AVar.pv 1 .tInt, 5)]⟩⟩ (AVar.pv 1 .tInt)
      (AVar.pv 0 .tArrInt) (LinExpr.var (AVar.pv 2 .tInt))
      (LinExpr.k 0)).inv.find (AVar.pv 1 .tInt) = some 5 := by
  decide

/-- C6 (amended): on a non-bottom, non-top state, a load with a
non-singleton index interval forgets the destination with the offset
maps unchanged, and so does a load whose overlap query is nonempty; but
a load whose element size has a non-singleton interval returns with the
whole state, the destination included, unchanged. -/
theorem C6_load_imprecision (S : ExpState) (lhs a : AVar) (es i : LinExpr)
    (hbot : S.inv.bot = false) (htop : S.inv.is_top = false) :
    ((S.inv.toItv i).singleton = none →
        exp_array_load S lhs a es i = { S with inv := S.inv.forget lhs }) ∧
    (∀ n : Int, (S.inv.toItv i).singleton = some n →
        (S.inv.toItv es).singleton = none →
        exp_array_load S lhs a es i = S) ∧
    (∀ n nb : Int, (S.inv.toItv i).singleton = some n →
        (S.inv.toItv es).singleton = some nb →
        get_overlap_cells (amapGet S.amap a) n nb.toNat ≠ [] →
        exp_array_load S lhs a es i = { S with inv := S.inv.forget lhs }) := by
  refine ⟨fun hi => exp_array_load_badidx S lhs a es i hbot htop hi,
          fun n hi hes => exp_array_load_bades S lhs a es i hbot htop hi hes,
          fun n nb hi hes hgoc =>
            exp_array_load_overlap S lhs a es i hbot htop hi hes hgoc⟩

/-- Witness for C6 (amended), first branch at a concrete state: a load
with an unconstrained variable as index forgets the destination. -/
theorem C6_load_imprecision_witness :
    exp_array_load ⟨[], ⟨false, [(AVar.pv 1 .tInt, 5)]⟩⟩ (AVar.pv 1 .tInt)
      (AVar.pv 0 .tArrInt) (LinExpr.k 4) (LinExpr.var (AVar.pv 2 .tInt))
      = { (⟨[], ⟨false, [(AVar.pv 1 .tInt, 5)]⟩⟩ : ExpState) with
          inv := ConstDom.forget ⟨false, [(AVar.pv 1 .tInt, 5)]⟩
                   (AVar.pv 1 .tInt) } :=
  (C6_load_imprecision ⟨[], ⟨false, [(AVar.pv 1 .tInt, 5)]⟩⟩ (AVar.pv 1 .tInt)
    (AVar.pv 0 .tArrInt) (LinExpr.k 4) (LinExpr.var (AVar.pv 2 .tInt))
    rfl rfl).1 (by decide)

/-- With enough fuel and a positive step, the init loop performs exactly
one store at each of the offsets i, i + n, ..., where q is the exact
multiplicity of n in ub - i. -/
theorem exp_init_loop_eq_fold (a : AVar) (es val : LinExpr) (n ub : Int)
    (hn : 0 < n) :
    ∀ (q : Nat) (fuel : Nat) (i : Int) (S : ExpState), q ≤ fuel →
      ub - i = n * q →
      exp_init_loop a es val n ub fuel i S =
        ((List.range q).map (fun k : Nat => i + n * (k : Int))).foldl
          (fun T o => exp_array_store T a es (LinExpr.k o) val false) S := by
  intro q
  induction q with
  | zero =>
    intro fuel i S hf hq
    simp only [Nat.cast_zero, mul_zero] at hq
    have hiu : ¬ i < ub := by omega
    cases fuel with
    | zero => rfl
    | succ fuel =>
      simp only [exp_init_loop]
      rw [if_neg hiu]
      rfl
  | succ q ih =>
    intro fuel i S hf hq
    push_cast at hq
    have hpos : (0 : Int) < n * ((q : Int) + 1) := mul_pos hn (by positivity)
    have hiu : i < ub := by linarith
    obtain ⟨fuel1, rfl⟩ : ∃ f, fuel = f + 1 := ⟨fuel - 1, by omega⟩
    simp only [exp_init_loop]
    rw [if_pos hiu]
    rw [ih fuel1 (i + n) _ (by omega) (by linear_combination hq)]
    rw [List.range_succ_eq_map]
    simp only [List.map_cons, List.foldl_cons, List.map_map]
    have hmaps : (fun k : Nat => i + n * (k : Int)) ∘ Nat.succ
        = fun k : Nat => i + n + n * (k : Int) := by
      funext k
      show i + n * ((k + 1 : Nat) : Int) = i + n + n * (k : Int)
      push_cast
      ring
    rw [hmaps]
    have hoff : i + n * ((0 : Nat) : Int) = i := by
      simp
    rw [hoff]

/-- Counterexample for C7: on a top (non-bottom) state with lb, ub and
elem_size all singleton constants satisfying divisibility and the 512
bound, array_init returns with the state unchanged, while the store it
was supposed to perform at offset lb changes the state. -/
theorem C7_init_skips_top :
    exp_array_init ⟨[], ⟨false, []⟩⟩ (AVar.pv 0 .tArrInt)
        (LinExpr.k 4) (LinExpr.k 0) (LinExpr.k 4) (LinExpr.k 7)
      = ⟨[], ⟨false, []⟩⟩ ∧
    exp_array_store ⟨[], ⟨false, []⟩⟩ (AVar.pv 0 .tArrInt)
        (LinExpr.k 4) (LinExpr.k 0) (LinExpr.k 7) false
      ≠ ⟨[], ⟨false, []⟩⟩ := by
  decide

/-- C7 (amended): on a non-bottom, NON-TOP state, array_init requires
lb, ub and elem_size to be singleton constants with (ub - lb) divisible
by elem_size (C++ truncated remainder) and at most 512; if any condition
fails the state is unchanged, and otherwise (for a positive element
size) it performs a store of val at each offset lb, lb + n, ...,
ub - n. On a top state the method returns immediately, performing no
store (see the counterexample). -/
theorem C7_array_init (S : ExpState) (a : AVar) (es lbIdx ubIdx val : LinExpr)
    (hbot : S.inv.is_bottom = false) (htop : S.inv.is_top = false) :
    ((S.inv.toItv lbIdx).singleton = none →
        exp_array_init S a es lbIdx ubIdx val = S) ∧
    (∀ lb : Int, (S.inv.toItv lbIdx).singleton = some lb →
        (S.inv.toItv ubIdx).singleton = none →
        exp_array_init S a es lbIdx ubIdx val = S) ∧
    (∀ lb ub : Int, (S.inv.toItv lbIdx).singleton = some lb →
        (S.inv.toItv ubIdx).singleton = some ub →
        (S.inv.toItv es).singleton = none →
        exp_array_init S a es lbIdx ubIdx val = S) ∧
    (∀ lb ub n : Int, (S.inv.toItv lbIdx).singleton = some lb →
        (S.inv.toItv ubIdx).singleton = some ub →
        (S.inv.toItv es).singleton = some n →
        (ub - lb).tmod n ≠ 0 →
        exp_array_init S a es lbIdx ubIdx val = S) ∧
    (∀ lb ub n : Int, (S.inv.toItv lbIdx).singleton = some lb →
        (S.inv.toItv ubIdx).singleton = some ub →
        (S.inv.toItv es).singleton = some n →
        (ub - lb).tmod n = 0 → 512 < ub - lb →
        exp_array_init S a es lbIdx ubIdx val = S) ∧
    (∀ (lb ub n : Int) (q : Nat),
        (S.inv.toItv lbIdx).singleton = some lb →
        (S.inv.toItv ubIdx).singleton = some ub →
        (S.inv.toItv es).singleton = some n →
        (ub - lb).tmod n = 0 → ub - lb ≤ 512 → 0 < n →
        ub - lb = n * q →
        exp_array_init S a es lbIdx ubIdx val =
          ((List.range q).map (fun k : Nat => lb + n * (k : Int))).foldl
            (fun T o => exp_array_store T a es (LinExpr.k o) val false) S) := by
  refine ⟨fun hlb => ?_, fun lb hlb hub => ?_, fun lb ub hlb hub hn => ?_,
          fun lb ub n hlb hub hn htm => ?_, fun lb ub n hlb hub hn htm hgt => ?_,
          fun lb ub n q hlb hub hn htm hle hnpos hq => ?_⟩
  all_goals
    unfold exp_array_init
    rw [hbot, htop]
    simp only [Bool.false_eq_true, Bool.or_self, if_false]
    rw [hlb]
  · dsimp only
    rw [hub]
  · dsimp only
    rw [hub]
    dsimp only
    rw [hn]
  · dsimp only
    rw [hub]
    dsimp only
    rw [hn]
    dsimp only
    rw [if_pos htm]
  · dsimp only
    rw [hub]
    dsimp only
    rw [hn]
    dsimp only
    rw [if_neg (by simp [htm]), if_pos hgt]
  · dsimp only
    rw [hub]
    dsimp only
    rw [hn]
    dsimp only
    rw [if_neg (by simp [htm]), if_neg (not_lt.mpr hle)]
    have hq512 : (q : Int) ≤ 512 := by
      have h1 : (q : Int) ≤ n * q :=
        le_mul_of_one_le_left (by positivity) hnpos
      omega
    exact exp_init_loop_eq_fold a es val n ub hnpos q 513 lb S (by omega) hq

/-- Witness for C7 (amended), success branch at a concrete non-top
state: initializing [0, 4) with element size 4 performs the single store
at offset 0. -/
theorem C7_array_init_witness :
    exp_array_init ⟨[], ⟨false, [(AVar.pv 5 .tInt, 0)]⟩⟩ (AVar.pv 0 .tArrInt)
        (LinExpr.k 4) (LinExpr.k 0) (LinExpr.k 4) (LinExpr.k 7)
      = ((List.range 1).map (fun k : Nat => (0 : Int) + 4 * (k : Int))).foldl
          (fun T o => exp_array_store T (AVar.pv 0 .tArrInt) (LinExpr.k 4)
            (LinExpr.k o) (LinExpr.k 7) false)
          ⟨[], ⟨false, [(AVar.pv 5 .tInt, 0)]⟩⟩ :=
  (C7_array_init ⟨[], ⟨false, [(AVar.pv 5 .tInt, 0)]⟩⟩ (AVar.pv 0 .tArrInt)
    (LinExpr.k 4) (LinExpr.k 0) (LinExpr.k 4) (LinExpr.k 7)
    rfl rfl).2.2.2.2.2 0 4 4 1 rfl rfl rfl (by decide) (by decide) (by decide)
    (by decide)

namespace SOCT

/-- Modelled from the spec: mirror vertex (spec section 4.5: neg(2k) = 2k+1,
neg(2k+1) = 2k). -/
def vneg (x : Nat) : Nat := if x % 2 = 0 then x + 1 else x - 1

/-- Modelled from the spec: the weighted graph (spec sections 4.2 and 10).
Vertex identifiers are dense integers below dims; freed identifiers are kept
on a free list (spec section 10: removal pushes the id onto a free list) and
reused by new_vertex. Edges are held as a list of (src, dst, weight) with at
most one entry per ordered pair; the per-vertex adjacency tables of the spec
are recovered by filtering. Weights (Wt = long) are unbounded here; no claim
depends on wrap-around. -/
structure WGraph where
  dims : Nat
  free : List Nat
  edges : List (Nat × Nat × Int)
deriving DecidableEq, Repr

/-- The cleared graph. -/
def emptyWG : WGraph := ⟨0, [], []⟩

/-- lookup(u, v): the weight of edge u→v, if present. -/
def WGraph.lookupEdge (g : WGraph) (u v : Nat) : Option Int :=
  (g.edges.find? (fun e => e.1 = u && e.2.1 = v)).map (fun e => e.2.2)

/-- elem(u, v). -/
def WGraph.elem (g : WGraph) (u v : Nat) : Bool := (g.lookupEdge u v).isSome

/-- edge_val(u, v); reading a missing edge is undefined behaviour in the
C++ graph, modelled as 0. -/
def WGraph.edgeVal (g : WGraph) (u v : Nat) : Int := (g.lookupEdge u v).getD 0

/-- add_edge(u, w, v): the edge is assumed absent. -/
def WGraph.addEdge (g : WGraph) (u : Nat) (w : Int) (v : Nat) : WGraph :=
  { g with edges := (u, v, w) :: g.edges }

/-- update_edge(u, w, v, min_op): write min(existing, w), inserting the
edge when absent (the min combiner treats a missing edge as plus
infinity). -/
def WGraph.updateEdgeMin (g : WGraph) (u v : Nat) (w : Int) : WGraph :=
  match g.lookupEdge u v with
  | some x =>
    { g with edges :=
        (g.edges.map (fun e => if e.1 = u && e.2.1 = v then (u, v, min x w) else e)) }
  | none => { g with edges := (u, v, w) :: g.edges }

/-- new_vertex(): pop the free list, else grow (spec section 10). -/
def WGraph.newVertex (g : WGraph) : Nat × WGraph :=
  match g.free with
  | f :: rest => (f, { g with free := rest })
  | [] => (g.dims, { g with dims := g.dims + 1 })

/-- Potential read (out-of-range reads are undefined in C++, modelled
as 0). -/
def potGet (p : List Int) (v : Nat) : Int := p.getD v 0

/-- Potential write. -/
def potSet (p : List Int) (v : Nat) (x : Int) : List Int := p.set v x

/-- Modelled from the spec: one full round of Bellman-Ford relaxation
over every edge (spec section 4.3, Select-potentials / Repair-potential:
Bellman-Ford-like relaxation over the potential vector). -/
def bfRelax (g : WGraph) (p : List Int) : List Int :=
  g.edges.foldl (fun p e =>
    if potGet p e.1 + e.2.2 < potGet p e.2.1
    then potSet p e.2.1 (potGet p e.1 + e.2.2) else p) p

/-- Iterated relaxation rounds. -/
def bfIter (g : WGraph) : Nat → List Int → List Int
  | 0, p => p
  | k + 1, p => bfIter g k (bfRelax g p)

/-- The potential-validity check: every edge satisfies
potential[u] + w - potential[v] ≥ 0. -/
def bfOK (g : WGraph) (p : List Int) : Bool :=
  g.edges.all (fun e => potGet p e.2.1 ≤ potGet p e.1 + e.2.2)

/-- Modelled from the spec: GrOps::select_potentials (spec section 4.3:
recompute potentials via Bellman-Ford, warm-started from the given
vector; a negative cycle means no valid potential exists, reported as
none). dims relaxation rounds followed by the validity check: with a
negative cycle no potential vector can pass the check, so failure is
reported regardless of the warm start. -/
def select_potentials (g : WGraph) (p0 : List Int) : Option (List Int) :=
  let p := bfIter g g.dims p0
  if bfOK g p then some p else none

/-- Modelled from the spec: GrOps::repair_potential (spec section 4.3:
after adding edge src→dest, propagate corrections via Bellman-Ford-like
relaxation; false on negative cycle). -/
def repair_potential (g : WGraph) (pot : List Int) (_src _dst : Nat) :
    Option (List Int) :=
  select_potentials g pot

/-- Modelled from the spec: one Floyd-Warshall sweep through pivot k
(spec section 11: all-pairs shortest paths; the closure operations of
graph_ops are shortest-path restorations). -/
def fwAcross (dims : Nat) (k : Nat) (m : WGraph) : WGraph :=
  (List.range dims).foldl (fun m i =>
    (List.range dims).foldl (fun m j =>
      match m.lookupEdge i k, m.lookupEdge k j with
      | some a, some b => m.updateEdgeMin i j (a + b)
      | _, _ => m) m) m

/-- All-pairs shortest-path closure of a graph. -/
def fwClose (g : WGraph) : WGraph :=
  (List.range g.dims).foldl (fun m k => fwAcross g.dims k m) g

/-- The edge updates by which the closure improves on the graph. -/
def closeDeltaOf (g : WGraph) : List (Nat × Nat × Int) :=
  (fwClose g).edges.filter (fun e => g.lookupEdge e.1 e.2.1 != some e.2.2)

/-- Modelled from the spec: each closure improvement is emitted together
with its mirror edge, because closure includes the coherence property
(spec section 4.5: the closed matrix satisfies coherence; spec section
219: coherence after normalize). -/
def mirrorClose (d : List (Nat × Nat × Int)) : List (Nat × Nat × Int) :=
  d.flatMap (fun e => [e, (vneg e.2.1, vneg e.1, e.2.2)])

/-- Modelled from the spec: GrOps::close_johnson (spec section 4.3 /
section 11: Johnson-style all-pairs shortest paths; the potential vector
only guides the algorithm, not its result). -/
def close_johnson (g : WGraph) (_pot : List Int) : List (Nat × Nat × Int) :=
  mirrorClose (closeDeltaOf g)

/-- Modelled from the spec: GrOps::close_after_widen (spec section 4.3:
restricted closure only from unstable vertices). -/
def close_after_widen (g : WGraph) (_pot : List Int) (unstable : List Nat) :
    List (Nat × Nat × Int) :=
  mirrorClose ((closeDeltaOf g).filter
    (fun e => unstable.contains e.1 || unstable.contains e.2.1))

/-- Modelled from the spec: GrOps::close_after_meet (spec section 4.3:
restore closure after a meet; the operand views guide the traversal, not
the result). -/
def close_after_meet (g : WGraph) (_pot : List Int) (_gx _gy : WGraph) :
    List (Nat × Nat × Int) :=
  mirrorClose (closeDeltaOf g)

/-- Modelled from the spec: GrOps::apply_delta (spec section 4.3: apply
a batch of edge updates, min-combined if the edge exists). -/
def apply_delta (g : WGraph) (d : List (Nat × Nat × Int)) : WGraph :=
  d.foldl (fun g e => g.updateEdgeMin e.1 e.2.1 e.2.2) g

/-- The split-octagon state (part_001: vert_map, rev_map, graph,
potential, unstable, _is_bottom). -/
structure OctState where
  vert_map : List (Nat × (Nat × Nat))
  rev_map : List (Option Nat)
  graph : WGraph
  potential : List Int
  unstable : List Nat
  isBot : Bool
deriving DecidableEq, Repr

/-- bottom() / set_to_bottom(): every container cleared, _is_bottom
true (part_001 lines 201-208). -/
def octBot : OctState := ⟨[], [], emptyWG, [], [], true⟩

/-- Lookup in vert_map. -/
def vmapLookup (m : List (Nat × (Nat × Nat))) (x : Nat) : Option (Nat × Nat) :=
  (m.find? (fun p => p.1 = x)).map (fun p => p.2)

/-- is_top(): not bottom and the graph empty (part_001 lines 333-336;
the graph's is_empty tests for the absence of edges). -/
def OctState.is_top (s : OctState) : Bool := !s.isBot && s.graph.edges.isEmpty

/-- The two compile-time parameters of DefaultParams/SimpleParams
(part_001 lines 55-94): chrome_dijkstra and widen_restabilize. -/
structure OctParams where
  chrome_dijkstra : Bool
  widen_restabilize : Bool
deriving DecidableEq, Repr

/-- DefaultParams: both flags on (part_001 lines 58-59). -/
def DefaultParams : OctParams := ⟨true, true⟩

/-- The rev_map/potential maintenance of get_vert for one vertex id: in
the C++ both writes are guarded by the same rev_map-size test (part_001
lines 371-387). -/
def gvPut (pot : List Int) (rm : List (Option Nat)) (i xv : Nat) :
    List Int × List (Option Nat) :=
  if i < rm.length then (pot.set i 0, rm.set i (some xv))
  else (pot ++ [0], rm ++ [some xv])

/-- SplitOCT_::get_vert (part_001 lines 348-389), including the defect
in the swap block: after `vert_pos = vert_neg`, the code assigns
`vert_neg = vert_pos` (the already-overwritten variable) instead of the
stashed temporary, so both names hold the smaller identifier. -/
def get_vert (s : OctState) (x : Nat) : Nat × OctState :=
  match vmapLookup s.vert_map x with
  | some p => (p.1, s)
  | none =>
    let r1 := s.graph.newVertex
    let r2 := r1.2.newVertex
    let pr :=
      if r2.1 < r1.1 then
        let vertPos := r2.1
        let vertNeg := vertPos
        (vertPos, vertNeg)
      else (r1.1, r2.1)
    let vm := (x, pr) :: s.vert_map
    let u1 := gvPut s.potential s.rev_map pr.1 x
    let u2 := gvPut u1.1 u1.2 pr.2 x
    (pr.1, { s with vert_map := vm, graph := r2.2, potential := u2.1, rev_map := u2.2 })

/-- One step of the coherence-enforcement loop of normalize (part_001
lines 1061-1110): for a snapshot edge v→w between vertices of distinct
pairs, equalize the edge and its mirror neg(w)→neg(v) to their minimum
(the four parity cases of the C++ all target neg(w)→neg(v)); when the
mirror is missing, add it and repair the potential, going to bottom on
failure. Weights are re-read from the live graph. -/
def normStep (st : OctState) (e : Nat × Nat × Int) : OctState :=
  let v := e.1
  let w := e.2.1
  if v / 2 = w / 2 then st
  else
    let current := st.graph.edgeVal v w
    match st.graph.lookupEdge (vneg w) (vneg v) with
    | some mir =>
      let mn := min mir current
      { st with graph :=
          (st.graph.updateEdgeMin (vneg w) (vneg v) mn).updateEdgeMin v w mn }
    | none =>
      let g1 := st.graph.addEdge (vneg w) current (vneg v)
      match repair_potential g1 st.potential (vneg w) (vneg v) with
      | some p1 => { st with graph := g1, potential := p1 }
      | none => octBot

/-- SplitOCT_::normalize (part_001 lines 1058-1125): enforce coherence
edge by edge over a snapshot of the graph's edges, then, if the unstable
set is nonempty, run close_after_widen (or close_johnson when the
restabilize flag is off), apply the delta, and clear the unstable
set. -/
def normalize (P : OctParams) (s : OctState) : OctState :=
  let s1 := s.graph.edges.foldl normStep s
  if s1.unstable.isEmpty then s1
  else
    let delta :=
      if P.widen_restabilize then
        close_after_widen s1.graph s1.potential s1.unstable
      else close_johnson s1.graph s1.potential
    { s1 with graph := apply_delta s1.graph delta, unstable := [] }

/-- SplitOCT_::get_interval (part_001 lines 2048-2056): an unmapped
variable is top; otherwise the interval is read off the two unary edges
of the positive vertex v: lower bound -w(v→v+1)/2 (missing edge: minus
infinity), upper bound w(v+1→v)/2 (missing edge: plus infinity); the
C++ Number division truncates. -/
def get_interval (m : List (Nat × (Nat × Nat))) (g : WGraph) (x : Nat) : Itv :=
  match vmapLookup m x with
  | none => Itv.top
  | some p =>
    Itv.make
      (match g.lookupEdge p.1 (p.1 + 1) with
       | some w => EB.fin ((-w).tdiv 2)
       | none => EB.ninf)
      (match g.lookupEdge (p.1 + 1) p.1 with
       | some w => EB.fin (w.tdiv 2)
       | none => EB.pinf)

/-- SplitOCT_::operator[] (part_001 lines 1046-1056): bottom yields the
bottom interval, otherwise get_interval on vert_map and graph. -/
def oct_get (s : OctState) (x : Nat) : Itv :=
  if s.isBot then Itv.bot else get_interval s.vert_map s.graph x

/-- Accumulator for the common-renaming loops of widening and meet. -/
structure RenAcc where
  vmap : List (Nat × (Nat × Nat))
  rev : List (Option Nat)
  pot : List Int
  permX : List (Option Nat)
  permY : List (Option Nat)
deriving DecidableEq, Repr

/-- Modelled from the spec: the permuted view GrPerm (spec section 4.2),
materialized: vertex i of the view corresponds to perm[i] of g; none
entries (the C++ -1) are absent vertices with no incident edges. -/
def permGraph (perm : List (Option Nat)) (g : WGraph) : WGraph :=
  ⟨perm.length, [],
    (List.range perm.length).foldl (fun es i =>
      (List.range perm.length).foldl (fun es j =>
        match perm.getD i none, perm.getD j none with
        | some pu, some pv =>
          match g.lookupEdge pu pv with
          | some w => es ++ [(i, j, w)]
          | none => es
        | _, _ => es) es) []⟩

/-- Modelled from the spec: GrOps::widen (spec section 4.3, Widening:
keep the left's edge only if the right has an equal-or-weaker edge,
i.e. the right's weight is not below the left's; otherwise drop it and
mark the source vertex destabilized). -/
def grWiden (gx gy : WGraph) : WGraph × List Nat :=
  ((⟨max gx.dims gy.dims, [],
    gx.edges.filter (fun e =>
      match gy.lookupEdge e.1 e.2.1 with
      | some wy => wy ≤ e.2.2
      | none => false)⟩ : WGraph),
   (gx.edges.filter (fun e =>
      match gy.lookupEdge e.1 e.2.1 with
      | some wy => !(wy ≤ e.2.2)
      | none => true)).map (fun e => e.1))

/-- Modelled from the spec: GrOps::meet (spec section 4.3, Meet:
vertex-wise union, minimum weight on common edges; the result is marked
not-closed, since closedness is only promised when both inputs were
closed and no new shorter path emerged). -/
def grMeet (gx gy : WGraph) : WGraph × Bool :=
  (gy.edges.foldl (fun g e => g.updateEdgeMin e.1 e.2.1 e.2.2)
    ⟨max gx.dims gy.dims, [], gx.edges⟩, false)

/-- The common-renaming loop of operator|| (part_001 lines 784-810):
variables present in both operands get consecutive vertex pairs; the
operand potentials are carried over. -/
def widenAcc (s o2 : OctState) : RenAcc :=
  s.vert_map.foldl (fun a p =>
    match vmapLookup o2.vert_map p.1 with
    | some q =>
      { vmap := a.vmap ++ [(p.1, (a.permX.length, a.permX.length + 1))],
        rev := a.rev ++ [some p.1, some p.1],
        pot := a.pot ++ [potGet s.potential p.2.1, potGet s.potential p.2.2],
        permX := a.permX ++ [some p.2.1, some p.2.2],
        permY := a.permY ++ [some q.1, some q.2] }
    | none => a) ⟨[], [], [], [], []⟩

/-- SplitOCT_::operator|| (part_001 lines 772-827): bottom operands
short-circuit; otherwise normalize the right operand, build the common
renaming, widen the permuted graphs and accumulate the destabilized
vertices onto the left operand's unstable set. -/
def oct_widen (P : OctParams) (s o : OctState) : OctState :=
  if s.isBot then o
  else if o.isBot then s
  else
    let o2 := normalize P o
    let a := widenAcc s o2
    let gw := grWiden (permGraph a.permX s.graph) (permGraph a.permY o2.graph)
    ⟨a.vmap, a.rev, gw.1, a.pot, s.unstable ++ gw.2, false⟩

/-- SplitOCT_::widening_thresholds (part_001 lines 451-454): the body is
exactly `return (*this || o)`. -/
def widening_thresholds (P : OctParams) (s o : OctState) (_ts : List Int) :
    OctState :=
  oct_widen P s o

/-- The two renaming loops of operator& (part_001 lines 844-887): every
variable of the left operand gets a fresh consecutive pair with the
right permutation unset; variables only in the right operand get fresh
pairs after those; common variables overwrite the right permutation at
the left's slots. -/
def meetAcc (s2 o2 : OctState) : RenAcc :=
  let a1 := s2.vert_map.foldl (fun a p =>
    { vmap := a.vmap ++ [(p.1, (a.permX.length, a.permX.length + 1))],
      rev := a.rev ++ [some p.1, some p.1],
      pot := a.pot ++ [potGet s2.potential p.2.1, potGet s2.potential p.2.2],
      permX := a.permX ++ [some p.2.1, some p.2.2],
      permY := a.permY ++ [none, none] }) ⟨[], [], [], [], []⟩
  o2.vert_map.foldl (fun a p =>
    match vmapLookup a.vmap p.1 with
    | none =>
      { vmap := a.vmap ++ [(p.1, (a.permY.length, a.permY.length + 1))],
        rev := a.rev ++ [some p.1, some p.1],
        pot := a.pot ++ [potGet o2.potential p.2.1, potGet o2.potential p.2.2],
        permX := a.permX ++ [none, none],
        permY := a.permY ++ [some p.2.1, some p.2.2] }
    | some q =>
      { a with permY := (a.permY.set q.1 (some p.2.1)).set q.2 (some p.2.2) }) a1

/-- The meet graph and its warm-started potential vector (part_001 lines
893-903): both operands normalized, permuted to the common renaming,
syntactically met. -/
def oct_meet_graph (P : OctParams) (s o : OctState) : WGraph × List Int :=
  let s2 := normalize P s
  let o2 := normalize P o
  let a := meetAcc s2 o2
  ((grMeet (permGraph a.permX s2.graph) (permGraph a.permY o2.graph)).1, a.pot)

/-- SplitOCT_::operator& (part_001 lines 830-952): bottom operands give
bottom, a top operand gives the other side; otherwise the potentials of
the meet graph are recomputed, bottom on negative cycle; else closure is
restored (close_after_meet under chrome_dijkstra, else close_johnson),
the delta applied, and the CLOSE_BOUNDS_INLINE recovery loop runs (its
two parity guards test for remainder 2 of division by 2 and never hold).
-/
def oct_meet (P : OctParams) (s o : OctState) : OctState :=
  if s.isBot || o.isBot then octBot
  else if s.is_top then o
  else if o.is_top then s
  else
    let s2 := normalize P s
    let o2 := normalize P o
    let a := meetAcc s2 o2
    let mg := oct_meet_graph P s o
    match select_potentials mg.1 mg.2 with
    | none => octBot
    | some mpi =>
      let gx := permGraph a.permX s2.graph
      let gy := permGraph a.permY o2.graph
      let isClosed := (grMeet gx gy).2
      let g2 :=
        if isClosed then mg.1
        else
          let delta :=
            if P.chrome_dijkstra then close_after_meet mg.1 mpi gx gy
            else close_johnson mg.1 mpi
          let g3 := apply_delta mg.1 delta
          delta.foldl (fun g e =>
            if e.1 % 2 = 2 then
              let g4 :=
                if g.elem (e.1 + 1) e.1 then
                  g.updateEdgeMin (e.1 + 1) e.2.1
                    (g.edgeVal (e.1 + 1) e.1 + 2 * e.2.2)
                else g
              if g4.elem e.2.1 (e.1 + 1) then
                g4.updateEdgeMin e.1 (e.1 + 1)
                  (g4.edgeVal e.2.1 (e.1 + 1) + 2 * e.2.2)
              else g4
            else if e.1 % 2 = 2 then
              let g4 :=
                if g.elem e.1 (e.1 + 1) then
                  g.updateEdgeMin e.1 e.2.1
                    (g.edgeVal e.1 (e.1 + 1) + 2 * e.2.2)
                else g
              if g4.elem e.2.1 (e.1 + 1) then
                g4.updateEdgeMin (e.1 + 1) e.1
                  (g4.edgeVal (e.2.1 + 1) e.1 + 2 * e.2.2)
              else g4
            else g) g3
      ⟨a.vmap, a.rev, g2, mpi, [], false⟩

/-- Coherence of a graph (spec sections 4.5 and 8): every edge u→v
between vertices of two distinct pairs has the mirror edge
neg(v)→neg(u) with equal weight. -/
def coherent (g : WGraph) : Prop :=
  ∀ u v c, u / 2 ≠ v / 2 → g.lookupEdge u v = some c →
    g.lookupEdge (vneg v) (vneg u) = some c

end SOCT

/-- C10: widening_thresholds returns exactly the plain widening for
every threshold set; the thresholds argument is ignored. -/
theorem C10_widening_thresholds_ignored (P : SOCT.OctParams)
    (s o : SOCT.OctState) (ts : List Int) :
    SOCT.widening_thresholds P s o ts = SOCT.oct_widen P s o := rfl

/-- C9: when the two freshly allocated vertex identifiers come out with
vert_pos > vert_neg (here: the graph's free list starts with f1 > f2,
so new_vertex returns f1 then f2), the defective swap block makes both
names equal to the smaller identifier f2, and the variable is inserted
into vert_map with the pair (f2, f2), whose components are equal instead
of satisfying the v- = v+ + 1 convention. -/
theorem C9_get_vert_swap_bug (s : SOCT.OctState) (x f1 f2 : Nat)
    (rest : List Nat)
    (hx : SOCT.vmapLookup s.vert_map x = none)
    (hfree : s.graph.free = f1 :: f2 :: rest)
    (hlt : f2 < f1) :
    (SOCT.get_vert s x).1 = f2 ∧
    SOCT.vmapLookup (SOCT.get_vert s x).2.vert_map x = some (f2, f2) := by
  unfold SOCT.get_vert
  rw [hx]
  dsimp only
  simp only [SOCT.WGraph.newVertex, hfree]
  rw [if_pos hlt]
  dsimp only
  refine ⟨rfl, ?_⟩
  simp [SOCT.vmapLookup]

/-- Witness for C9: starting from a state whose graph has free list
[5, 2], the fresh variable 7 is mapped to the pair (2, 2). -/
theorem C9_get_vert_swap_bug_witness :
    (SOCT.get_vert ⟨[], [], ⟨6, [5, 2], []⟩, [0, 0, 0, 0, 0, 0], [], false⟩
      7).1 = 2 ∧
    SOCT.vmapLookup (SOCT.get_vert
      ⟨[], [], ⟨6, [5, 2], []⟩, [0, 0, 0, 0, 0, 0], [], false⟩
      7).2.vert_map 7 = some (2, 2) :=
  C9_get_vert_swap_bug ⟨[], [], ⟨6, [5, 2], []⟩, [0, 0, 0, 0, 0, 0], [], false⟩
    7 5 2 [] rfl rfl (by decide)

/-- C5: on a bottom value the interval query returns the bottom
interval; on a non-bottom value an unmapped variable yields top; and a
variable mapped to the pair (vp, vn) with the v- = v+ + 1 convention
yields the interval [-w(vp→vn)/2, w(vn→vp)/2], a missing lower edge
giving minus infinity and a missing upper edge plus infinity (the C++
Number division truncates, Int.tdiv here). -/
theorem C5_interval_query (s : SOCT.OctState) (x vp vn : Nat) :
    (s.isBot = true → SOCT.oct_get s x = Itv.bot) ∧
    (s.isBot = false → SOCT.vmapLookup s.vert_map x = none →
      SOCT.oct_get s x = Itv.top) ∧
    (s.isBot = false → SOCT.vmapLookup s.vert_map x = some (vp, vn) →
      vn = vp + 1 →
      SOCT.oct_get s x =
        Itv.make
          (match s.graph.lookupEdge vp vn with
           | some w => EB.fin ((-w).tdiv 2)
           | none => EB.ninf)
          (match s.graph.lookupEdge vn vp with
           | some w => EB.fin (w.tdiv 2)
           | none => EB.pinf)) := by
  refine ⟨fun hb => ?_, fun hb hm => ?_, fun hb hm hvn => ?_⟩
  · unfold SOCT.oct_get
    rw [if_pos hb]
  · unfold SOCT.oct_get SOCT.get_interval
    rw [hb]
    simp only [Bool.false_eq_true, if_false]
    rw [hm]
  · unfold SOCT.oct_get SOCT.get_interval
    rw [hb]
    simp only [Bool.false_eq_true, if_false]
    rw [hm]
    dsimp only
    rw [hvn]

/-- Witness for C5 at a concrete state: with unary edges of weights -4
and 6 on the pair of variable 0, the query returns [2, 3]. -/
theorem C5_interval_query_witness :
    SOCT.oct_get ⟨[(0, (0, 1))], [some 0, some 0],
      ⟨2, [], [(0, 1, -4), (1, 0, 6)]⟩, [0, 0], [], false⟩ 0
      = Itv.make (EB.fin 2) (EB.fin 3) := by
  rw [(C5_interval_query ⟨[(0, (0, 1))], [some 0, some 0],
      ⟨2, [], [(0, 1, -4), (1, 0, 6)]⟩, [0, 0], [], false⟩ 0 0 1).2.2
    rfl rfl rfl]
  decide

/-- C3: the meet returns bottom whenever an operand is bottom; and for
non-bottom, non-top operands, whenever the potential selection on the
edge-wise-minimum meet graph (warm-started with the operand potentials)
detects a negative cycle, the meet returns the bottom value. -/
theorem C3_meet_bottom_on_negative_cycle (P : SOCT.OctParams)
    (s o : SOCT.OctState) :
    (s.isBot = true → SOCT.oct_meet P s o = SOCT.octBot) ∧
    (o.isBot = true → SOCT.oct_meet P s o = SOCT.octBot) ∧
    (s.isBot = false → o.isBot = false →
      s.is_top = false → o.is_top = false →
      SOCT.select_potentials (SOCT.oct_meet_graph P s o).1
        (SOCT.oct_meet_graph P s o).2 = none →
      SOCT.oct_meet P s o = SOCT.octBot) := by
  refine ⟨fun hb => ?_, fun hb => ?_, fun hs ho hst hot hsel => ?_⟩
  · unfold SOCT.oct_meet
    rw [hb]
    rfl
  · unfold SOCT.oct_meet
    rw [hb]
    simp only [Bool.or_true]
    simp only [if_true]
  · unfold SOCT.oct_meet
    rw [hs, ho, hst, hot]
    simp only [Bool.or_self, Bool.false_eq_true, if_false]
    rw [hsel]

/-- Witness for C3: two states constraining y - x ≤ -1 and x - y ≤ -1
respectively; their meet graph carries the negative cycle, the potential
selection fails, and the meet is bottom. -/
theorem C3_meet_bottom_on_negative_cycle_witness :
    SOCT.oct_meet SOCT.DefaultParams
      ⟨[(0, (0, 1)), (1, (2, 3))], [some 0, some 0, some 1, some 1],
        ⟨4, [], [(0, 2, -1)]⟩, [0, 0, 0, 0], [], false⟩
      ⟨[(0, (0, 1)), (1, (2, 3))], [some 0, some 0, some 1, some 1],
        ⟨4, [], [(2, 0, -1)]⟩, [0, 0, 0, 0], [], false⟩
      = SOCT.octBot :=
  (C3_meet_bottom_on_negative_cycle SOCT.DefaultParams
      ⟨[(0, (0, 1)), (1, (2, 3))], [some 0, some 0, some 1, some 1],
        ⟨4, [], [(0, 2, -1)]⟩, [0, 0, 0, 0], [], false⟩
      ⟨[(0, (0, 1)), (1, (2, 3))], [some 0, some 0, some 1, some 1],
        ⟨4, [], [(2, 0, -1)]⟩, [0, 0, 0, 0], [], false⟩).2.2
    rfl rfl (by decide) (by decide) (by decide)

namespace SOCT

/-- The mirror map is an involution. -/
theorem vneg_vneg (x : Nat) : vneg (vneg x) = x := by
  unfold vneg
  by_cases h : x % 2 = 0
  · rw [if_pos h, if_neg (by omega)]
    omega
  · rw [if_neg h, if_pos (by omega)]
    omega

/-- Mirroring keeps the vertex inside its pair. -/
theorem vneg_div (x : Nat) : vneg x / 2 = x / 2 := by
  unfold vneg
  split <;> omega

/-- The mirror map is injective. -/
theorem vneg_inj {a b : Nat} (h : vneg a = vneg b) : a = b := by
  have h2 := congrArg vneg h
  rwa [vneg_vneg, vneg_vneg] at h2

/-- An edge between distinct pairs is never its own mirror. -/
theorem ne_pair_mirror {u v : Nat} (h : u / 2 ≠ v / 2) :
    ¬(u = vneg v ∧ v = vneg u) := by
  rintro ⟨h1, _⟩
  apply h
  rw [h1, vneg_div]

/-- find? on a cons whose head satisfies the predicate. -/
theorem fcons_true {α : Type} (p : α → Bool) (a : α) (l : List α)
    (h : p a = true) : (a :: l).find? p = some a :=
  List.find?_cons_of_pos _ h

/-- find? on a cons whose head fails the predicate. -/
theorem fcons_false {α : Type} (p : α → Bool) (a : α) (l : List α)
    (h : p a = false) : (a :: l).find? p = l.find? p :=
  List.find?_cons_of_neg _ (by simp [h])

/-- The edge-key test evaluates to false off the key. -/
theorem keyq_false {a b : Nat} {e : Nat × Nat × Int}
    (h : ¬(e.1 = a ∧ e.2.1 = b)) :
    (decide (e.1 = a) && decide (e.2.1 = b)) = false := by
  by_cases h1 : e.1 = a
  · by_cases h2 : e.2.1 = b
    · exact absurd ⟨h1, h2⟩ h
    · simp [h2]
  · simp [h1]

/-- find? for an edge key skips a head with a different key. -/
theorem lookup_skip (a b : Nat) (en : Nat × Nat × Int)
    (l : List (Nat × Nat × Int)) (h : ¬(en.1 = a ∧ en.2.1 = b)) :
    (en :: l).find? (fun e => e.1 = a && e.2.1 = b)
      = l.find? (fun e => e.1 = a && e.2.1 = b) :=
  fcons_false _ _ _ (keyq_false h)

/-- find? for an edge key returns a head with that key. -/
theorem lookup_hit (a b : Nat) (en : Nat × Nat × Int)
    (l : List (Nat × Nat × Int)) (h : en.1 = a ∧ en.2.1 = b) :
    (en :: l).find? (fun e => e.1 = a && e.2.1 = b) = some en :=
  fcons_true _ _ _ (by simp [h.1, h.2])

/-- find? over the weight-rewriting map of updateEdgeMin, away from the
rewritten key. -/
theorem findMap_other (u v a b : Nat) (x w : Int)
    (l : List (Nat × Nat × Int)) (h : ¬(a = u ∧ b = v)) :
    ((l.map (fun e => if e.1 = u && e.2.1 = v then (u, v, min x w) else e)).find?
        (fun e => e.1 = a && e.2.1 = b))
      = l.find? (fun e => e.1 = a && e.2.1 = b) := by
  induction l with
  | nil => rfl
  | cons e l ih =>
    simp only [List.map_cons]
    by_cases hk : e.1 = u ∧ e.2.1 = v
    · rw [if_pos (by simp [hk.1, hk.2])]
      rw [lookup_skip a b (u, v, min x w) _ (by
        rintro ⟨rfl, rfl⟩
        exact h ⟨rfl, rfl⟩)]
      rw [lookup_skip a b e _ (by
        rw [hk.1, hk.2]
        rintro ⟨rfl, rfl⟩
        exact h ⟨rfl, rfl⟩)]
      exact ih
    · rw [if_neg (by simp only [Bool.and_eq_true, decide_eq_true_eq]; exact hk)]
      by_cases hp : e.1 = a ∧ e.2.1 = b
      · rw [lookup_hit a b e _ hp, lookup_hit a b e _ hp]
      · rw [lookup_skip a b e _ hp, lookup_skip a b e _ hp]
        exact ih

/-- find? over the weight-rewriting map of updateEdgeMin, at the
rewritten key. -/
theorem findMap_self (u v : Nat) (x w : Int) (l : List (Nat × Nat × Int))
    (en : Nat × Nat × Int)
    (hfind : l.find? (fun e => e.1 = u && e.2.1 = v) = some en) :
    (l.map (fun e => if e.1 = u && e.2.1 = v then (u, v, min x w) else e)).find?
        (fun e => e.1 = u && e.2.1 = v) = some (u, v, min x w) := by
  induction l with
  | nil => cases hfind
  | cons e l ih =>
    simp only [List.map_cons]
    by_cases hp : e.1 = u ∧ e.2.1 = v
    · rw [if_pos (by simp [hp.1, hp.2])]
      exact lookup_hit u v (u, v, min x w) _ ⟨rfl, rfl⟩
    · rw [if_neg (by simp only [Bool.and_eq_true, decide_eq_true_eq]; exact hp)]
      rw [lookup_skip u v e _ hp] at hfind
      rw [lookup_skip u v e _ hp]
      exact ih hfind

/-- updateEdgeMin leaves every other edge unchanged. -/
theorem lookupEdge_updateEdgeMin_other {g : WGraph} {u v a b : Nat} {w : Int}
    (h : ¬(a = u ∧ b = v)) :
    (g.updateEdgeMin u v w).lookupEdge a b = g.lookupEdge a b := by
  unfold WGraph.updateEdgeMin
  cases hl : g.lookupEdge u v with
  | some x =>
    dsimp only
    unfold WGraph.lookupEdge
    rw [findMap_other u v a b x w g.edges h]
  | none =>
    dsimp only
    unfold WGraph.lookupEdge
    rw [lookup_skip a b (u, v, w) _ (by
      rintro ⟨rfl, rfl⟩
      exact h ⟨rfl, rfl⟩)]

/-- updateEdgeMin on a present edge lowers it to the minimum. -/
theorem lookupEdge_updateEdgeMin_self_some {g : WGraph} {u v : Nat}
    {x w : Int} (h : g.lookupEdge u v = some x) :
    (g.updateEdgeMin u v w).lookupEdge u v = some (min x w) := by
  unfold WGraph.updateEdgeMin
  rw [h]
  dsimp only
  obtain ⟨en, hen, _⟩ := Option.map_eq_some'.mp h
  unfold WGraph.lookupEdge
  rw [findMap_self u v x w g.edges en hen]
  rfl

/-- updateEdgeMin on a missing edge inserts it. -/
theorem lookupEdge_updateEdgeMin_self_none {g : WGraph} {u v : Nat}
    {w : Int} (h : g.lookupEdge u v = none) :
    (g.updateEdgeMin u v w).lookupEdge u v = some w := by
  unfold WGraph.updateEdgeMin
  rw [h]
  dsimp only
  unfold WGraph.lookupEdge
  rw [lookup_hit u v (u, v, w) _ ⟨rfl, rfl⟩]
  rfl

/-- addEdge makes the added edge present. -/
theorem lookupEdge_addEdge_self (g : WGraph) (u v : Nat) (w : Int) :
    (g.addEdge u w v).lookupEdge u v = some w := by
  unfold WGraph.addEdge WGraph.lookupEdge
  rw [lookup_hit u v (u, v, w) _ ⟨rfl, rfl⟩]
  rfl

/-- addEdge leaves every other edge unchanged. -/
theorem lookupEdge_addEdge_other {g : WGraph} {u v a b : Nat} {w : Int}
    (h : ¬(a = u ∧ b = v)) :
    (g.addEdge u w v).lookupEdge a b = g.lookupEdge a b := by
  unfold WGraph.addEdge WGraph.lookupEdge
  rw [lookup_skip a b (u, v, w) _ (by
    rintro ⟨rfl, rfl⟩
    exact h ⟨rfl, rfl⟩)]

end SOCT

namespace SOCT

/-- In a coherent graph, mirror lookups agree as options. -/
theorem coherent_opt {g : WGraph} (hg : coherent g) {u v : Nat}
    (h : u / 2 ≠ v / 2) :
    g.lookupEdge (vneg v) (vneg u) = g.lookupEdge u v := by
  cases hl : g.lookupEdge u v with
  | some c => exact hg u v c h hl
  | none =>
    cases hm : g.lookupEdge (vneg v) (vneg u) with
    | none => rfl
    | some c =>
      have h2 : vneg v / 2 ≠ vneg u / 2 := by
        rw [vneg_div, vneg_div]
        omega
      have h3 := hg (vneg v) (vneg u) c h2 hm
      rw [vneg_vneg, vneg_vneg] at h3
      simp [hl] at h3

/-- Applying an update together with its mirror update preserves
coherence. -/
theorem coherent_updPair {g : WGraph} (hg : coherent g) (u v : Nat)
    (w : Int) :
    coherent ((g.updateEdgeMin u v w).updateEdgeMin (vneg v) (vneg u) w) := by
  intro x y c hxy hl
  by_cases huv : u / 2 = v / 2
  · have hx1 : ¬(x = u ∧ y = v) := by
      rintro ⟨rfl, rfl⟩
      exact hxy huv
    have hx2 : ¬(x = vneg v ∧ y = vneg u) := by
      rintro ⟨rfl, rfl⟩
      apply hxy
      rw [vneg_div, vneg_div]
      omega
    rw [lookupEdge_updateEdgeMin_other hx2,
        lookupEdge_updateEdgeMin_other hx1] at hl
    have hm1 : ¬(vneg y = u ∧ vneg x = v) := by
      rintro ⟨m1, m2⟩
      exact hx2 ⟨by rw [← m2, vneg_vneg], by rw [← m1, vneg_vneg]⟩
    have hm2 : ¬(vneg y = vneg v ∧ vneg x = vneg u) := by
      rintro ⟨m1, m2⟩
      exact hx1 ⟨vneg_inj m2, vneg_inj m1⟩
    rw [lookupEdge_updateEdgeMin_other hm2,
        lookupEdge_updateEdgeMin_other hm1]
    exact hg x y c hxy hl
  · by_cases hP1 : x = u ∧ y = v
    · have hQ : ¬(u = vneg v ∧ v = vneg u) := ne_pair_mirror huv
      have hQ2 : ¬(vneg v = u ∧ vneg u = v) := fun ⟨k1, k2⟩ =>
        hQ ⟨k1.symm, k2.symm⟩
      rw [hP1.1, hP1.2] at hl ⊢
      rw [lookupEdge_updateEdgeMin_other hQ] at hl
      have hopt := coherent_opt hg (u := u) (v := v) (by
        rw [← hP1.1, ← hP1.2]
        exact hxy)
      cases hg0 : g.lookupEdge u v with
      | some t =>
        rw [lookupEdge_updateEdgeMin_self_some hg0] at hl
        rw [lookupEdge_updateEdgeMin_self_some (x := t) (by
          rw [lookupEdge_updateEdgeMin_other hQ2, hopt]
          exact hg0)]
        exact hl
      | none =>
        rw [lookupEdge_updateEdgeMin_self_none hg0] at hl
        rw [lookupEdge_updateEdgeMin_self_none (by
          rw [lookupEdge_updateEdgeMin_other hQ2, hopt]
          exact hg0)]
        exact hl
    · by_cases hP2 : x = vneg v ∧ y = vneg u
      · have hQ : ¬(u = vneg v ∧ v = vneg u) := ne_pair_mirror huv
        have hQ2 : ¬(vneg v = u ∧ vneg u = v) := fun ⟨k1, k2⟩ =>
          hQ ⟨k1.symm, k2.symm⟩
        rw [hP2.1, hP2.2] at hl ⊢
        rw [vneg_vneg, vneg_vneg]
        have hvv : vneg v / 2 ≠ vneg u / 2 := by
          rw [← hP2.1, ← hP2.2]
          exact hxy
        have hopt := coherent_opt hg (u := u) (v := v) (by
          rw [vneg_div, vneg_div] at hvv
          omega)
        cases hg0 : g.lookupEdge u v with
        | some t =>
          have hl2 : (g.updateEdgeMin u v w).lookupEdge (vneg v) (vneg u)
              = some t := by
            rw [lookupEdge_updateEdgeMin_other hQ2, hopt]
            exact hg0
          rw [lookupEdge_updateEdgeMin_self_some hl2] at hl
          rw [lookupEdge_updateEdgeMin_other hQ,
              lookupEdge_updateEdgeMin_self_some hg0]
          exact hl
        | none =>
          have hl2 : (g.updateEdgeMin u v w).lookupEdge (vneg v) (vneg u)
              = none := by
            rw [lookupEdge_updateEdgeMin_other hQ2, hopt]
            exact hg0
          rw [lookupEdge_updateEdgeMin_self_none hl2] at hl
          rw [lookupEdge_updateEdgeMin_other hQ,
              lookupEdge_updateEdgeMin_self_none hg0]
          exact hl
      · rw [lookupEdge_updateEdgeMin_other hP2,
            lookupEdge_updateEdgeMin_other hP1] at hl
        have hm1 : ¬(vneg y = u ∧ vneg x = v) := by
          rintro ⟨m1, m2⟩
          exact hP2 ⟨by rw [← m2, vneg_vneg], by rw [← m1, vneg_vneg]⟩
        have hm2 : ¬(vneg y = vneg v ∧ vneg x = vneg u) := by
          rintro ⟨m1, m2⟩
          exact hP1 ⟨vneg_inj m2, vneg_inj m1⟩
        rw [lookupEdge_updateEdgeMin_other hm2,
            lookupEdge_updateEdgeMin_other hm1]
        exact hg x y c hxy hl

/-- Applying a mirror-closed delta preserves coherence. -/
theorem coherent_applyDelta_mirror :
    ∀ (d : List (Nat × Nat × Int)) (g : WGraph), coherent g →
      coherent (apply_delta g (mirrorClose d)) := by
  intro d
  induction d with
  | nil => intro g hg; exact hg
  | cons e d ih =>
    intro g hg
    have hmc : mirrorClose (e :: d)
        = e :: (vneg e.2.1, vneg e.1, e.2.2) :: mirrorClose d := by
      simp [mirrorClose]
    rw [hmc]
    exact ih _ (coherent_updPair hg e.1 e.2.1 e.2.2)

end SOCT

namespace SOCT

/-- normalize's per-edge step never resets the bottom flag. -/
theorem normStep_isBot {st : OctState} (e : Nat × Nat × Int)
    (h : st.isBot = true) : (normStep st e).isBot = true := by
  unfold normStep
  dsimp only
  split
  · exact h
  · split
    · exact h
    · split
      · exact h
      · rfl

/-- The whole coherence loop never resets the bottom flag. -/
theorem foldl_normStep_isBot :
    ∀ (l : List (Nat × Nat × Int)) (st : OctState), st.isBot = true →
      (l.foldl normStep st).isBot = true := by
  intro l
  induction l with
  | nil => intro st h; exact h
  | cons e l ih => intro st h; exact ih _ (normStep_isBot e h)

/-- The coherence-enforcement loop of normalize establishes coherence:
if the fold over the remaining snapshot edges ends non-bottom, every
remaining snapshot edge is present, and every relational edge of the
current graph is either still pending (itself or its mirror is in the
remaining snapshot) or already balanced with its mirror, then the final
graph is coherent. -/
theorem phase1_coherent :
    ∀ (rem : List (Nat × Nat × Int)) (st : OctState),
      (rem.foldl normStep st).isBot = false →
      (∀ e ∈ rem, (st.graph.lookupEdge e.1 e.2.1).isSome = true) →
      (∀ u v c, u / 2 ≠ v / 2 → st.graph.lookupEdge u v = some c →
        ((∃ e ∈ rem, e.1 = u ∧ e.2.1 = v) ∨
         (∃ e ∈ rem, e.1 = vneg v ∧ e.2.1 = vneg u) ∨
         st.graph.lookupEdge (vneg v) (vneg u) = some c)) →
      coherent (rem.foldl normStep st).graph := by
  intro rem
  induction rem with
  | nil =>
    intro st _ _ hinv u v c huv hl
    rcases hinv u v c huv hl with ⟨e, he, _⟩ | ⟨e, he, _⟩ | h3
    · cases he
    · cases he
    · exact h3
  | cons e rem ih =>
    intro st hb hpres hinv
    rw [List.foldl_cons] at hb ⊢
    by_cases hvw : e.1 / 2 = e.2.1 / 2
    · have hstep : normStep st e = st := by
        unfold normStep
        rw [if_pos hvw]
      rw [hstep] at hb ⊢
      refine ih st hb (fun e' he' => hpres e' (List.mem_cons_of_mem _ he')) ?_
      intro u v c huv hl
      rcases hinv u v c huv hl with ⟨e0, he0, hk⟩ | ⟨e0, he0, hk⟩ | h3
      · rcases List.mem_cons.mp he0 with rfl | hmem
        · exact absurd (by rw [← hk.1, ← hk.2]; exact hvw) huv
        · exact Or.inl ⟨e0, hmem, hk⟩
      · rcases List.mem_cons.mp he0 with rfl | hmem
        · have hval : v / 2 = u / 2 := by
            rw [← vneg_div v, ← vneg_div u, ← hk.1, ← hk.2]
            exact hvw
          exact absurd hval.symm huv
        · exact Or.inr (Or.inl ⟨e0, hmem, hk⟩)
      · exact Or.inr (Or.inr h3)
    · have hpe := hpres e (List.mem_cons_self e rem)
      obtain ⟨cur0, hcur0⟩ := Option.isSome_iff_exists.mp hpe
      have hev : st.graph.edgeVal e.1 e.2.1 = cur0 := by
        unfold WGraph.edgeVal
        rw [hcur0]
        rfl
      have hdist : ¬(e.1 = vneg e.2.1 ∧ e.2.1 = vneg e.1) := ne_pair_mirror hvw
      have hdist2 : ¬(vneg e.2.1 = e.1 ∧ vneg e.1 = e.2.1) :=
        fun ⟨k1, k2⟩ => hdist ⟨k1.symm, k2.symm⟩
      cases hmir : st.graph.lookupEdge (vneg e.2.1) (vneg e.1) with
      | some m =>
        have hstep : normStep st e =
            { st with graph :=
                (st.graph.updateEdgeMin (vneg e.2.1) (vneg e.1)
                   (min m cur0)).updateEdgeMin e.1 e.2.1 (min m cur0) } := by
          unfold normStep
          rw [if_neg hvw]
          dsimp only
          rw [hev, hmir]
        rw [hstep] at hb ⊢
        have hinner : (st.graph.updateEdgeMin (vneg e.2.1) (vneg e.1)
            (min m cur0)).lookupEdge e.1 e.2.1 = some cur0 := by
          rw [lookupEdge_updateEdgeMin_other hdist]
          exact hcur0
        have hG1 : ((st.graph.updateEdgeMin (vneg e.2.1) (vneg e.1)
            (min m cur0)).updateEdgeMin e.1 e.2.1
            (min m cur0)).lookupEdge e.1 e.2.1 = some (min m cur0) := by
          rw [lookupEdge_updateEdgeMin_self_some hinner]
          congr 1
          omega
        have hinner2 : (st.graph.updateEdgeMin (vneg e.2.1) (vneg e.1)
            (min m cur0)).lookupEdge (vneg e.2.1) (vneg e.1)
            = some (min m (min m cur0)) :=
          lookupEdge_updateEdgeMin_self_some hmir
        have hG2 : ((st.graph.updateEdgeMin (vneg e.2.1) (vneg e.1)
            (min m cur0)).updateEdgeMin e.1 e.2.1
            (min m cur0)).lookupEdge (vneg e.2.1) (vneg e.1)
            = some (min m cur0) := by
          rw [lookupEdge_updateEdgeMin_other hdist2, hinner2]
          congr 1
          omega
        have hOther : ∀ a b, ¬(a = e.1 ∧ b = e.2.1) →
            ¬(a = vneg e.2.1 ∧ b = vneg e.1) →
            ((st.graph.updateEdgeMin (vneg e.2.1) (vneg e.1)
              (min m cur0)).updateEdgeMin e.1 e.2.1
              (min m cur0)).lookupEdge a b = st.graph.lookupEdge a b := by
          intro a b h1 h2
          rw [lookupEdge_updateEdgeMin_other h1,
              lookupEdge_updateEdgeMin_other h2]
        refine ih _ hb ?_ ?_
        · intro e' he'
          by_cases k1 : e'.1 = e.1 ∧ e'.2.1 = e.2.1
          · rw [k1.1, k1.2, hG1]
            rfl
          · by_cases k2 : e'.1 = vneg e.2.1 ∧ e'.2.1 = vneg e.1
            · rw [k2.1, k2.2, hG2]
              rfl
            · rw [hOther _ _ k1 k2]
              exact hpres e' (List.mem_cons_of_mem _ he')
        · intro u v c huv hl
          by_cases k1 : u = e.1 ∧ v = e.2.1
          · have hc : c = min m cur0 := by
              rw [k1.1, k1.2, hG1] at hl
              exact (Option.some.inj hl).symm
            refine Or.inr (Or.inr ?_)
            rw [k1.1, k1.2, hG2, hc]
          · by_cases k2 : u = vneg e.2.1 ∧ v = vneg e.1
            · have hc : c = min m cur0 := by
                rw [k2.1, k2.2, hG2] at hl
                exact (Option.some.inj hl).symm
              refine Or.inr (Or.inr ?_)
              rw [k2.1, k2.2, vneg_vneg, vneg_vneg, hG1, hc]
            · rw [hOther u v k1 k2] at hl
              rcases hinv u v c huv hl with ⟨e0, he0, hk⟩ | ⟨e0, he0, hk⟩ | h3
              · rcases List.mem_cons.mp he0 with rfl | hmem
                · exact absurd ⟨hk.1.symm, hk.2.symm⟩ k1
                · exact Or.inl ⟨e0, hmem, hk⟩
              · rcases List.mem_cons.mp he0 with rfl | hmem
                · refine absurd ⟨?_, ?_⟩ k2
                  · rw [hk.2, vneg_vneg]
                  · rw [hk.1, vneg_vneg]
                · exact Or.inr (Or.inl ⟨e0, hmem, hk⟩)
              · refine Or.inr (Or.inr ?_)
                rw [hOther (vneg v) (vneg u) ?_ ?_]
                · exact h3
                · rintro ⟨m1, m2⟩
                  exact k2 ⟨by rw [← m2, vneg_vneg], by rw [← m1, vneg_vneg]⟩
                · rintro ⟨m1, m2⟩
                  exact k1 ⟨vneg_inj m2, vneg_inj m1⟩
      | none =>
        cases hrep : repair_potential
            (st.graph.addEdge (vneg e.2.1) cur0 (vneg e.1)) st.potential
            (vneg e.2.1) (vneg e.1) with
        | none =>
          have hstep : normStep st e = octBot := by
            unfold normStep
            rw [if_neg hvw]
            dsimp only
            rw [hev, hmir]
            dsimp only
            rw [hrep]
          rw [hstep] at hb
          rw [foldl_normStep_isBot rem octBot rfl] at hb
          cases hb
        | some p1 =>
          have hstep : normStep st e =
              { st with
                graph := st.graph.addEdge (vneg e.2.1) cur0 (vneg e.1),
                potential := p1 } := by
            unfold normStep
            rw [if_neg hvw]
            dsimp only
            rw [hev, hmir]
            dsimp only
            rw [hrep]
          rw [hstep] at hb ⊢
          have hG2 : (st.graph.addEdge (vneg e.2.1) cur0
              (vneg e.1)).lookupEdge (vneg e.2.1) (vneg e.1) = some cur0 :=
            lookupEdge_addEdge_self _ _ _ _
          have hG1 : (st.graph.addEdge (vneg e.2.1) cur0
              (vneg e.1)).lookupEdge e.1 e.2.1 = some cur0 := by
            rw [lookupEdge_addEdge_other hdist]
            exact hcur0
          have hOther : ∀ a b, ¬(a = vneg e.2.1 ∧ b = vneg e.1) →
              (st.graph.addEdge (vneg e.2.1) cur0
                (vneg e.1)).lookupEdge a b = st.graph.lookupEdge a b := by
            intro a b h2
            rw [lookupEdge_addEdge_other h2]
          refine ih _ hb ?_ ?_
          · intro e' he'
            by_cases k2 : e'.1 = vneg e.2.1 ∧ e'.2.1 = vneg e.1
            · rw [k2.1, k2.2, hG2]
              rfl
            · rw [hOther _ _ k2]
              exact hpres e' (List.mem_cons_of_mem _ he')
          · intro u v c huv hl
            by_cases k1 : u = e.1 ∧ v = e.2.1
            · have hc : c = cur0 := by
                rw [k1.1, k1.2, hG1] at hl
                exact (Option.some.inj hl).symm
              refine Or.inr (Or.inr ?_)
              rw [k1.1, k1.2, hG2, hc]
            · by_cases k2 : u = vneg e.2.1 ∧ v = vneg e.1
              · have hc : c = cur0 := by
                  rw [k2.1, k2.2, hG2] at hl
                  exact (Option.some.inj hl).symm
                refine Or.inr (Or.inr ?_)
                rw [k2.1, k2.2, vneg_vneg, vneg_vneg, hG1, hc]
              · rw [hOther u v k2] at hl
                rcases hinv u v c huv hl with ⟨e0, he0, hk⟩ | ⟨e0, he0, hk⟩ | h3
                · rcases List.mem_cons.mp he0 with rfl | hmem
                  · exact absurd ⟨hk.1.symm, hk.2.symm⟩ k1
                  · exact Or.inl ⟨e0, hmem, hk⟩
                · rcases List.mem_cons.mp he0 with rfl | hmem
                  · refine absurd ⟨?_, ?_⟩ k2
                    · rw [hk.2, vneg_vneg]
                    · rw [hk.1, vneg_vneg]
                  · exact Or.inr (Or.inl ⟨e0, hmem, hk⟩)
                · refine Or.inr (Or.inr ?_)
                  rw [hOther (vneg v) (vneg u) ?_]
                  · exact h3
                  · rintro ⟨m1, m2⟩
                    exact k1 ⟨vneg_inj m2, vneg_inj m1⟩

end SOCT

namespace SOCT

/-- C4: after normalize() returns on a value that is non-bottom, the
coherence property holds — every edge u→v between vertices of two
distinct pairs has the mirror edge neg(v)→neg(u) with equal weight —
and the unstable vertex set is empty (when it was nonempty,
close-after-widen, or Johnson closure when the restabilize flag is off,
was run before clearing it; both emit mirror-closed deltas, spec
section 4.5). -/
theorem C4_normalize_coherence (P : OctParams) (s : OctState)
    (h : (normalize P s).isBot = false) :
    coherent (normalize P s).graph ∧ (normalize P s).unstable = [] := by
  have hpresTop : ∀ e ∈ s.graph.edges,
      (s.graph.lookupEdge e.1 e.2.1).isSome = true := by
    intro e he
    unfold WGraph.lookupEdge
    have hs : (s.graph.edges.find?
        (fun e2 => e2.1 = e.1 && e2.2.1 = e.2.1)).isSome = true := by
      rw [List.find?_isSome]
      exact ⟨e, he, by simp⟩
    obtain ⟨en, hen⟩ := Option.isSome_iff_exists.mp hs
    rw [hen]
    rfl
  have hinvTop : ∀ u v c, u / 2 ≠ v / 2 → s.graph.lookupEdge u v = some c →
      ((∃ e ∈ s.graph.edges, e.1 = u ∧ e.2.1 = v) ∨
       (∃ e ∈ s.graph.edges, e.1 = vneg v ∧ e.2.1 = vneg u) ∨
       s.graph.lookupEdge (vneg v) (vneg u) = some c) := by
    intro u v c huv hl
    left
    unfold WGraph.lookupEdge at hl
    obtain ⟨en, hen, _⟩ := Option.map_eq_some'.mp hl
    have hpred := List.find?_some hen
    simp only [Bool.and_eq_true, decide_eq_true_eq] at hpred
    exact ⟨en, List.mem_of_find?_eq_some hen, hpred.1, hpred.2⟩
  simp only [normalize] at h ⊢
  by_cases hu : (s.graph.edges.foldl normStep s).unstable.isEmpty = true
  · rw [if_pos hu] at h ⊢
    exact ⟨phase1_coherent _ _ h hpresTop hinvTop, List.isEmpty_iff.mp hu⟩
  · rw [if_neg hu] at h ⊢
    have hb1 : (s.graph.edges.foldl normStep s).isBot = false := h
    have hcoh := phase1_coherent _ _ hb1 hpresTop hinvTop
    refine ⟨?_, rfl⟩
    cases P.widen_restabilize
    · rw [if_neg (by simp)]
      exact coherent_applyDelta_mirror _ _ hcoh
    · rw [if_pos rfl]
      exact coherent_applyDelta_mirror _ _ hcoh

/-- Witness for C4 at the top state: normalize leaves it non-bottom,
its graph coherent and its unstable set empty. -/
theorem C4_normalize_coherence_witness :
    coherent (normalize DefaultParams ⟨[], [], emptyWG, [], [], false⟩).graph ∧
    (normalize DefaultParams ⟨[], [], emptyWG, [], [], false⟩).unstable = [] :=
  C4_normalize_coherence DefaultParams ⟨[], [], emptyWG, [], [], false⟩ rfl

end SOCT
